import Mathlib

/-!
Verification development for the fa-archiver core (mask parsing and
formatting, first and double decimation, the timestamp index, the reader
side binary search and gap detection, and the disk writer header
directory).  Each C function of the archiver that the properties below
speak about is translated into an executable Lean definition; machine
integers become Nat or Int with explicit wrap-around where the C types
can overflow.
-/

namespace FaArchiver

/-- Modulus of C unsigned 64-bit arithmetic. -/
def U64 : Nat := 2 ^ 64

/-- Modulus of C unsigned 32-bit arithmetic. -/
def U32 : Nat := 2 ^ 32

/-- Wrapping unsigned 64-bit subtraction (for operands below `U64`). -/
def sub64 (a b : Nat) : Nat := (a + U64 - b) % U64

/-- Wrapping unsigned 64-bit addition. -/
def add64 (a b : Nat) : Nat := (a + b) % U64

/-- Reinterpret an unsigned 64-bit value as a signed (two's complement)
64-bit value, as the C cast `(int64_t)` does. -/
def i64 (v : Nat) : Int := if v < 2 ^ 63 then (v : Int) else (v : Int) - (U64 : Int)

/-- C cast of a signed integer to `uint32_t` (reduction mod `2^32`). -/
def u32ofInt (v : Int) : Nat := (v % (U32 : Int)).toNat

/-- C cast of a signed integer to `uint64_t` (reduction mod `2^64`). -/
def u64ofInt (v : Int) : Nat := (v % (U64 : Int)).toNat

/-- C cast of a wide signed integer to `int32_t` (two's complement wrap). -/
def i32ofInt (v : Int) : Int := (v + 2 ^ 31) % (2 ^ 32 : Int) - 2 ^ 31

/-- Arithmetic right shift of a signed 64-bit value, i.e. C `sum >> shift`
on a signed operand: floor division by a power of two. -/
def asr (v : Int) (s : Nat) : Int := Int.fdiv v (2 ^ s)

/- * * * Filter mask (mask.c).  `struct filter_mask` and its bit
operations live in mask.h, which is not among the sources; modelled from
the spec as a bitset over [0, fa_entry_count) held in a natural number
(bit i = BPM id i, matching the byte array layout
`mask->mask[bit / 8] & (1 << (bit % 8))`). * * * -/

/-- Modelled from the spec: `test_mask_bit` of mask.h. -/
def test_mask_bit (m : Nat) (bit : Nat) : Bool := m.testBit bit

/-- Modelled from the spec: `set_mask_bit` of mask.h. -/
def set_mask_bit (m : Nat) (bit : Nat) : Nat := m ||| (1 <<< bit)

/-- `count_mask_bits` of mask.c. -/
def count_mask_bits (m : Nat) (fa_entry_count : Nat) : Nat :=
  (List.range fa_entry_count).countP (fun bit => test_mask_bit m bit)

/-- The decimal digit characters of `sprintf`. -/
def digitChar10 : Nat → Char
  | 0 => '0'
  | 1 => '1'
  | 2 => '2'
  | 3 => '3'
  | 4 => '4'
  | 5 => '5'
  | 6 => '6'
  | 7 => '7'
  | 8 => '8'
  | 9 => '9'
  | _ + 10 => '*'

/-- The uppercase hex digit characters of `sprintf("%02X", …)`. -/
def hexDigitChar : Nat → Char
  | 0 => '0'
  | 1 => '1'
  | 2 => '2'
  | 3 => '3'
  | 4 => '4'
  | 5 => '5'
  | 6 => '6'
  | 7 => '7'
  | 8 => '8'
  | 9 => '9'
  | 10 => 'A'
  | 11 => 'B'
  | 12 => 'C'
  | 13 => 'D'
  | 14 => 'E'
  | 15 => 'F'
  | _ + 16 => '*'

/-- The two characters `sprintf("%02X", b)` writes for a byte. -/
def hexByteChars (b : Nat) : List Char := [hexDigitChar (b / 16), hexDigitChar (b % 16)]

/-- The loop of `format_raw_mask` of mask.c: bytes most significant
first, two uppercase hex characters per byte. -/
def format_raw_mask_chars (m : Nat) : Nat → List Char
  | 0 => []
  | i + 1 => hexByteChars ((m >>> (8 * i)) % 256) ++ format_raw_mask_chars m i

/-- `format_raw_mask` of mask.c.  Note the returned count is the
literal C return value `4 * fa_entry_count`. -/
def format_raw_mask (m fa_entry_count : Nat) : List Char × Nat :=
  (format_raw_mask_chars m (fa_entry_count / 8), 4 * fa_entry_count)

/-- Modelled from the spec: `read_char` of parse.h — consume the next
character when it equals `c`. -/
def read_char (s : List Char) (c : Char) : Option (List Char) :=
  match s with
  | c2 :: r => if c2 = c then some r else none
  | [] => none

/-- Decimal digit test. -/
def isDigitChar (c : Char) : Bool := decide ('0' ≤ c) && decide (c ≤ '9')

/-- The digit-consuming loop of `parse_uint`. -/
def parse_uint_digits : List Char → Nat → Nat × List Char
  | [], acc => (acc, [])
  | c :: r, acc =>
    if isDigitChar c then parse_uint_digits r (10 * acc + (c.toNat - 48)) else (acc, c :: r)

/-- Modelled from the spec: `parse_uint` of parse.h — a nonempty run of
decimal digits. -/
def parse_uint (s : List Char) : Option (Nat × List Char) :=
  match s with
  | [] => none
  | c :: r => if isDigitChar c then some (parse_uint_digits (c :: r) 0) else none

/-- `parse_id` of mask.c: a decimal id below `fa_entry_count`. -/
def parse_id (fa_entry_count : Nat) (s : List Char) : Option (Nat × List Char) :=
  match parse_uint s with
  | none => none
  | some (id, r) => if id < fa_entry_count then some (id, r) else none

/-- One hex digit as accepted by `parse_raw_mask` (uppercase only). -/
def hexNibble (c : Char) : Option Nat :=
  if decide ('0' ≤ c) && decide (c ≤ '9') then some (c.toNat - 48)
  else if decide ('A' ≤ c) && decide (c ≤ 'F') then some (c.toNat - 55)
  else none

/-- The loop of `parse_raw_mask` of mask.c: consumes one hex character
per nibble, counting `i` down; nibble `i` lands at bit `4 * i`
(`mask->mask[i / 2] |= nibble << (4 * (i % 2))`).  Reading past the end
of the string means reading the terminating NUL, which is not a hex
digit and fails. -/
def parse_raw_mask_aux : Nat → List Char → Nat → Option (Nat × List Char)
  | 0, s, acc => some (acc, s)
  | _ + 1, [], _ => none
  | i + 1, c :: s, acc =>
    match hexNibble c with
    | none => none
    | some n => parse_raw_mask_aux i s (acc ||| (n <<< (4 * i)))

/-- `parse_raw_mask` of mask.c: `fa_entry_count / 4` nibbles. -/
def parse_raw_mask (fa_entry_count : Nat) (s : List Char) : Option (Nat × List Char) :=
  parse_raw_mask_aux (fa_entry_count / 4) s 0

/-- The bit-setting loop `for (i = id; ok && i <= end_id; i++)
set_mask_bit(mask, i)` of `parse_mask`, with an explicit count. -/
def set_mask_range : Nat → Nat → Nat → Nat
  | m, _, 0 => m
  | m, id, cnt + 1 => set_mask_range (set_mask_bit m id) (id + 1) cnt

/-- The do-while loop of `parse_mask` over comma-separated ids and
ranges.  The fuel decreases once per iteration; every iteration consumes
at least one character, so `length + 1` fuel always suffices. -/
def parse_mask_list (fa_entry_count : Nat) : Nat → List Char → Nat → Option (Nat × List Char)
  | 0, _, _ => none
  | fuel + 1, s, m =>
    match parse_id fa_entry_count s with
    | none => none
    | some (id, r) =>
      match read_char r '-' with
      | some r2 =>
        match parse_id fa_entry_count r2 with
        | none => none
        | some (end_id, r3) =>
          if id ≤ end_id then
            match read_char r3 ',' with
            | some r4 => parse_mask_list fa_entry_count fuel r4
                (set_mask_range m id (end_id + 1 - id))
            | none => some (set_mask_range m id (end_id + 1 - id), r3)
          else none
      | none =>
        match read_char r ',' with
        | some r4 => parse_mask_list fa_entry_count fuel r4 (set_mask_range m id 1)
        | none => some (set_mask_range m id 1, r)

/-- `parse_mask` of mask.c: a leading `R` selects the raw form, anything
else the id-list grammar (starting from the zeroed mask). -/
def parse_mask (fa_entry_count : Nat) (s : List Char) : Option (Nat × List Char) :=
  match read_char s 'R' with
  | some r => parse_raw_mask fa_entry_count r
  | none => parse_mask_list fa_entry_count (s.length + 1) s 0

/-- The decimal representation written by `sprintf("%d", n)` (with
fuel; `n + 1` steps always suffice since the argument shrinks by a
factor of ten). -/
def natToCharsAux : Nat → Nat → List Char
  | 0, _ => []
  | fuel + 1, n =>
    if n < 10 then [digitChar10 n]
    else natToCharsAux fuel (n / 10) ++ [digitChar10 (n % 10)]

/-- Decimal representation of `n`. -/
def natToChars (n : Nat) : List Char := natToCharsAux (n + 1) n

/-- A string that does not begin with a decimal digit (so a preceding
number ends exactly there). -/
def headNotDigit : List Char → Prop
  | [] => True
  | c :: _ => isDigitChar c = false

/-- State of the budgeted string writer of `format_readable_mask`:
output so far and remaining buffer budget. -/
structure WriteState where
  out : List Char
  length : Nat
deriving DecidableEq

/-- `write_string` of mask.c: the value plus its terminating NUL must
fit strictly within the remaining budget. -/
def write_string (st : WriteState) (v : List Char) : Option WriteState :=
  if v.length + 1 < st.length then some ⟨st.out ++ v, st.length - v.length⟩ else none

/-- `write_uint` of mask.c. -/
def write_uint (st : WriteState) (n : Nat) : Option WriteState :=
  write_string st (natToChars n)

/-- `write_range` of mask.c: optional separating comma, the start id,
and an optional `-end` part when the range has more than one id. -/
def write_range (st : WriteState) (start end_ : Nat) (first : Bool) : Option WriteState :=
  match (if first then some st else write_string st [',']) with
  | none => none
  | some st1 =>
    match write_uint st1 start with
    | none => none
    | some st2 =>
      if start < end_ then
        match write_string st2 ['-'] with
        | none => none
        | some st3 => write_uint st3 end_
      else some st2

/-- The scan loop of `format_readable_mask` together with its final
flush of a still-open range (which uses `fa_entry_count - 1` as the
range end); `id` counts up while `cnt` counts down to the entry count. -/
def format_readable_from (m : Nat) (N : Nat) :
    Nat → Nat → WriteState → Bool → Bool → Nat → Option WriteState
  | _, 0, st, in_range, first, range_start =>
    if in_range then write_range st range_start (N - 1) first else some st
  | id, cnt + 1, st, in_range, first, range_start =>
    if test_mask_bit m id && !in_range then
      format_readable_from m N (id + 1) cnt st true first id
    else if !(test_mask_bit m id) && in_range then
      match write_range st range_start (id - 1) first with
      | none => none
      | some st2 => format_readable_from m N (id + 1) cnt st2 false false range_start
    else
      format_readable_from m N (id + 1) cnt st in_range first range_start

/-- `format_readable_mask` of mask.c. -/
def format_readable_mask (m fa_entry_count : Nat) (length : Nat) : Option (List Char) :=
  match format_readable_from m fa_entry_count 0 fa_entry_count ⟨[], length⟩ false true 0 with
  | none => none
  | some st => some st.out

/-- `format_mask` of mask.c: prefer the readable form with buffer budget
`fa_entry_count / 4`; otherwise write `R` followed by the raw hex form.
The second component is the C return value (`strlen` of the readable
form, or `format_raw_mask`'s return value in the raw branch). -/
def format_mask (m fa_entry_count : Nat) : List Char × Nat :=
  match format_readable_mask m fa_entry_count (fa_entry_count / 4) with
  | some out => (out, out.length)
  | none =>
    ('R' :: (format_raw_mask m fa_entry_count).1, (format_raw_mask m fa_entry_count).2)

/-- The ascending ranges of set bits of `m` below the entry count (the
decomposition that `format_readable_mask` renders); a proof device
mirroring the scan loop. -/
def rangesAux (m : Nat) : Nat → Nat → Bool → Nat → List (Nat × Nat)
  | id, 0, in_range, s => if in_range then [(s, id - 1)] else []
  | id, cnt + 1, in_range, s =>
    if test_mask_bit m id && !in_range then rangesAux m (id + 1) cnt true id
    else if !(test_mask_bit m id) && in_range then
      (s, id - 1) :: rangesAux m (id + 1) cnt false s
    else rangesAux m (id + 1) cnt in_range s

/-- The ranges of `m` over `[0, N)`. -/
def maskRanges (m N : Nat) : List (Nat × Nat) := rangesAux m 0 N false 0

/-- The characters `write_range` emits for one range. -/
def renderRange (r : Nat × Nat) : List Char :=
  natToChars r.1 ++ (if r.1 < r.2 then '-' :: natToChars r.2 else [])

/-- The full readable rendering of a range list with comma separators. -/
def renderRangesAux : Bool → List (Nat × Nat) → List Char
  | _, [] => []
  | first, r :: rest =>
    (if first then [] else [',']) ++ renderRange r ++ renderRangesAux false rest

/-- The mask obtained by setting every id of every range, starting from
`m0`. -/
def bitsOfRanges (m0 : Nat) (rs : List (Nat × Nat)) : Nat :=
  rs.foldl (fun m r => set_mask_range m r.1 (r.2 + 1 - r.1)) m0

/- * * * Decimation: variance accumulators of transform.c. * * * -/

/-- One FA frame entry, `struct fa_entry`: a pair of int32 values. -/
structure FaEntry where
  x : Int
  y : Int
deriving DecidableEq

/-- One decimated slot, `struct decimated_data`. -/
structure DecimatedData where
  min : FaEntry
  max : FaEntry
  mean : FaEntry
  std : FaEntry
deriving DecidableEq

/-- INT32_MAX of the C library. -/
def INT32_MAX : Int := 2 ^ 31 - 1

/-- INT32_MIN of the C library. -/
def INT32_MIN : Int := -(2 ^ 31)

/-- The accumulator `struct fa_accum`: int32 minima and maxima, int64
sums, uint128 sums of squares.  The sums are modelled as unbounded
integers: as the comment block in transform.c explains, an int64 / 128
bit accumulator cannot overflow for groups of up to 2^16 int32 samples,
and the decimation factors stay far below that. -/
structure FaAccum where
  minx : Int
  maxx : Int
  miny : Int
  maxy : Int
  sumx : Int
  sumy : Int
  sum_sq_x : Nat
  sum_sq_y : Nat
deriving DecidableEq

/-- `initialise_accum` of transform.c. -/
def initialise_accum : FaAccum :=
  { minx := INT32_MAX, maxx := INT32_MIN, miny := INT32_MAX, maxy := INT32_MIN,
    sumx := 0, sumy := 0, sum_sq_x := 0, sum_sq_y := 0 }

/-- `accum_xy` of transform.c.  The squares `(int64_t) x * x` are
non-negative, so their accumulation into the unsigned 128-bit field is
plain addition. -/
def accum_xy (acc : FaAccum) (input : FaEntry) : FaAccum :=
  { minx := if input.x < acc.minx then input.x else acc.minx,
    maxx := if acc.maxx < input.x then input.x else acc.maxx,
    miny := if input.y < acc.miny then input.y else acc.miny,
    maxy := if acc.maxy < input.y then input.y else acc.maxy,
    sumx := acc.sumx + input.x,
    sumy := acc.sumy + input.y,
    sum_sq_x := acc.sum_sq_x + (input.x * input.x).toNat,
    sum_sq_y := acc.sum_sq_y + (input.y * input.y).toNat }

/-- `accum_accum` of transform.c. -/
def accum_accum (result input : FaAccum) : FaAccum :=
  { minx := if input.minx < result.minx then input.minx else result.minx,
    maxx := if result.maxx < input.maxx then input.maxx else result.maxx,
    miny := if input.miny < result.miny then input.miny else result.miny,
    maxy := if result.maxy < input.maxy then input.maxy else result.maxy,
    sumx := result.sumx + input.sumx,
    sumy := result.sumy + input.sumy,
    sum_sq_x := result.sum_sq_x + input.sum_sq_x,
    sum_sq_y := result.sum_sq_y + input.sum_sq_y }

/-- `compute_std` of transform.c.  The C routine switches to double
precision floating point at this point; it is modelled with exact
rational arithmetic.  `sr128(acc, shift)` is the 128-bit right shift.
For `var > 0` the C cast `(int32_t) sqrt(var)` truncates the real square
root toward zero; since for any real `v ≥ 0` the floor of `√v` equals
the floor of `√⌊v⌋`, this is the integer square root of `⌊var⌋` (the
value fits in int32 because `var ≤ sum_sq >> shift ≤ 2^62` for int32
samples). -/
def compute_std (acc : Nat) (sum : Int) (shift : Nat) : Int :=
  let mean : ℚ := (sum : ℚ) / ((1 <<< shift : Nat) : ℚ)
  let var : ℚ := ((acc >>> shift : Nat) : ℚ) - mean * mean
  if 0 < var then (Nat.sqrt ⌊var⌋.toNat : Int) else 0

/-- `compute_result` of transform.c; the mean is the arithmetic right
shift of the int64 sum truncated to int32. -/
def compute_result (acc : FaAccum) (shift : Nat) : DecimatedData :=
  { min := ⟨acc.minx, acc.miny⟩,
    max := ⟨acc.maxx, acc.maxy⟩,
    mean := ⟨i32ofInt (asr acc.sumx shift), i32ofInt (asr acc.sumy shift)⟩,
    std := ⟨compute_std acc.sum_sq_x acc.sumx shift,
            compute_std acc.sum_sq_y acc.sumy shift⟩ }

/-- The accumulation loop of `decimate_column_one`: `accum_xy` over the
first `n` samples of one column.  (The C code walks the input with
pointer stride `FA_ENTRY_COUNT`; the column is passed here as the
function from sample number to entry.) -/
def accumulateColumn (col : Nat → FaEntry) : Nat → FaAccum
  | 0 => initialise_accum
  | n + 1 => accum_xy (accumulateColumn col n) (col n)

/-- `decimate_column_one` of transform.c: converts a column of
`2 ^ N_log2` entries into a single decimated slot, and folds the group
accumulator into the running double-decimation accumulator. -/
def decimate_column_one (col : Nat → FaEntry) (double_accum : FaAccum)
    (N_log2 : Nat) : DecimatedData × FaAccum :=
  (compute_result (accumulateColumn col (1 <<< N_log2)) N_log2,
   accum_accum double_accum (accumulateColumn col (1 <<< N_log2)))

/- * * * Index maintenance: the straight-line timestamp fit of
`advance_index` in transform.c. * * * -/

/-- The loop of `advance_index` accumulating `sum_x`: the sum of the
relative minor-block timestamps. -/
def advance_index_sum_x (xs : Nat → Int) (count : Nat) : Int :=
  ∑ i ∈ Finset.range count, xs i

/-- The loop of `advance_index` accumulating `sum_xt` with the symmetric
axis `t = 2*i - timestamp_count + 1`. -/
def advance_index_sum_xt (xs : Nat → Int) (count : Nat) : Int :=
  ∑ i ∈ Finset.range count, xs i * (2 * (i : Int) - (count : Int) + 1)

/-- `sum_t2 = ((uint64_t) count * count - 1) * count / 3` of
`advance_index` (exact: the numerator is a product of three consecutive
integers). -/
def advance_index_sum_t2 (count : Nat) : Nat := (count * count - 1) * count / 3

/-- The duration stored by `advance_index`:
`ix->duration = (uint32_t) (2 * timestamp_count * sum_xt / sum_t2)`.
The int64 numerator is converted to uint64 by the usual arithmetic
conversions (division by the uint64 `sum_t2`), and the store truncates
to uint32. -/
def advance_index_duration (xs : Nat → Int) (count : Nat) : Nat :=
  u64ofInt (2 * (count : Int) * advance_index_sum_xt xs count) /
    advance_index_sum_t2 count % U32

/-- The start timestamp stored by `advance_index`:
`first_timestamp + sum_x / timestamp_count - (timestamp_count + 1) * sum_xt / sum_t2`
in unsigned 64-bit arithmetic (the int64 quotients are converted). -/
def advance_index_timestamp (first : Nat) (xs : Nat → Int) (count : Nat) : Nat :=
  sub64 (add64 first (u64ofInt (Int.tdiv (advance_index_sum_x xs count) (count : Int))))
    (u64ofInt (((count : Int) + 1) * advance_index_sum_xt xs count) /
      advance_index_sum_t2 count)

/-- A concrete timestamp array with strictly increasing entries that are
far from equally spaced. -/
def c3Array : Nat → Int
  | 0 => 0
  | 1 => 1
  | 2 => 999999
  | 3 => 1000000
  | _ + 4 => 0

/- * * * Reader side index lookup (transform.c).  The data index is
modelled as a function from block number to index entry. * * * -/

/-- One entry of the on-disk data index: `struct data_index`. -/
structure DataIndexEntry where
  timestamp : Nat
  duration : Nat
  id_zero : Nat
deriving DecidableEq

/-- `#define INDEX_SKIP 2` of transform.c. -/
def INDEX_SKIP : Nat := 2

/-- `#define MAX_DELTA_T 1000` of transform.c. -/
def MAX_DELTA_T : Nat := 1000

/-- The `while` loop of `binary_search` in transform.c, with explicit fuel
(the loop halves the cyclic distance between `low` and `high`, so any fuel
of at least `N` steps reaches the exit condition; this is proved where the
function is used).  Returns the final `(low, high)` pair. -/
def binarySearchLoop (idx : Nat → DataIndexEntry) (N ts : Nat) :
    Nat → Nat → Nat → Nat × Nat
  | 0, low, high => (low, high)
  | fuel + 1, low, high =>
    if (low + 1) % N = high then (low, high)
    else
      let mid := if low < high then (low + high) / 2 else ((low + high + N) / 2) % N
      if ts < (idx mid).timestamp then binarySearchLoop idx N ts fuel low mid
      else binarySearchLoop idx N ts fuel mid high

/-- `binary_search` of transform.c: cyclic binary search for the latest
valid block whose starting timestamp is no later than `ts`; a found block
with zero duration (an uninitialised entry at the start of the archive)
makes the function return the final `high` bound instead of `low`. -/
def binary_search (idx : Nat → DataIndexEntry) (N current ts : Nat) : Nat :=
  if (idx (binarySearchLoop idx N ts N ((current + 1 + INDEX_SKIP) % N) current).1).duration = 0
  then (binarySearchLoop idx N ts N ((current + 1 + INDEX_SKIP) % N) current).2
  else (binarySearchLoop idx N ts N ((current + 1 + INDEX_SKIP) % N) current).1

/-- `timestamp_to_block` of transform.c.  `msc` is
`header->major_sample_count`.  Returns `(block, offset)`.  The C function
computes `timestamp - block_start` in unsigned 64-bit arithmetic and the
offset in unsigned 64-bit arithmetic truncated to `unsigned int` on
store. -/
def timestamp_to_block (idx : Nat → DataIndexEntry) (N current msc : Nat)
    (ts : Nat) (skip_gap : Bool) : Nat × Nat :=
  let block := binary_search idx N current ts
  let block_start := (idx block).timestamp
  let duration := (idx block).duration
  let block_size := msc
  if ts < block_start then (block, 0)
  else if sub64 ts block_start < duration then
    (block, sub64 ts block_start * block_size % U64 / duration % U32)
  else if skip_gap then ((block + 1) % N, 0)
  else (block, block_size - 1)

/-- Variant of `timestamp_to_block` that refuses (returns `none`) whenever
the branch containing the division `/ duration` would be entered with a
zero divisor; everywhere else it agrees with `timestamp_to_block`. -/
def timestamp_to_block_checked (idx : Nat → DataIndexEntry) (N current msc : Nat)
    (ts : Nat) (skip_gap : Bool) : Option (Nat × Nat) :=
  let block := binary_search idx N current ts
  let block_start := (idx block).timestamp
  let duration := (idx block).duration
  let block_size := msc
  if ts < block_start then some (block, 0)
  else if sub64 ts block_start < duration then
    if duration = 0 then none
    else some (block, sub64 ts block_start * block_size % U64 / duration % U32)
  else if skip_gap then some ((block + 1) % N, 0)
  else some (block, block_size - 1)

/-- The `while` loop of `find_gap` of transform.c.  `ets` and `eid` are the
loop-carried expected timestamp and expected id-zero values derived from
the previous block; the result is the returned boolean together with the
final values of the by-reference arguments `*start` and `*blocks`. -/
def find_gap_aux (idx : Nat → DataIndexEntry) (N msc : Nat) (check_id0 : Bool) :
    Nat → Nat → Nat → Nat → Bool × Nat × Nat
  | 0, start, _, _ => (false, start, 0)
  | 1, start, _, _ => (false, start, 1)
  | blocks + 2, start, ets, eid =>
    let start1 := start + 1
    let start' := if start1 = N then 0 else start1
    let e := idx start'
    let delta_t : Int := i64 (sub64 e.timestamp ets)
    if (check_id0 && decide (e.id_zero ≠ eid)) ||
        decide (delta_t < -(MAX_DELTA_T : Int)) || decide ((MAX_DELTA_T : Int) < delta_t) then
      (true, start', blocks + 1)
    else
      find_gap_aux idx N msc check_id0 (blocks + 1) start'
        (add64 e.timestamp e.duration) ((e.id_zero + msc) % U32)

/-- `find_gap` of transform.c: the initial expected timestamp and id-zero
are derived from the entry at `start`, then the loop walks forward. -/
def find_gap (idx : Nat → DataIndexEntry) (N msc : Nat) (check_id0 : Bool)
    (start blocks : Nat) : Bool × Nat × Nat :=
  find_gap_aux idx N msc check_id0 blocks start
    (add64 (idx start).timestamp (idx start).duration)
    (((idx start).id_zero + msc) % U32)

/-- The gap condition of `find_gap` between a walked block `p` and its
successor `q`, written with exact integer arithmetic: the start timestamp
of `q` differs from the expected `timestamp + duration` of `p` by more
than `MAX_DELTA_T`, or (with `check_id0`) the id-zero of `q` is not the
id-zero of `p` advanced by `major_sample_count` (a `uint32_t` addition). -/
def gapBetween (idx : Nat → DataIndexEntry) (msc : Nat) (check_id0 : Bool)
    (p q : Nat) : Prop :=
  (check_id0 = true ∧ (idx q).id_zero ≠ ((idx p).id_zero + msc) % U32) ∨
  ((idx q).timestamp : Int) - ((idx p).timestamp + (idx p).duration) < -(MAX_DELTA_T : Int) ∨
  (MAX_DELTA_T : Int) < ((idx q).timestamp : Int) - ((idx p).timestamp + (idx p).duration)

instance gapBetween.instDecidable (idx : Nat → DataIndexEntry) (msc : Nat)
    (check_id0 : Bool) (p q : Nat) : Decidable (gapBetween idx msc check_id0 p q) := by
  unfold gapBetween
  exact inferInstance

/-- A concrete all-zero column used to instantiate the decimation
statistics theorem. -/
def zeroCol : Nat → FaEntry := fun _ => ⟨0, 0⟩

/-- A small concrete data index used to instantiate theorems about the
reader side on concrete inputs. -/
def sampleIdx : Nat → DataIndexEntry
  | 0 => ⟨1000, 100, 0⟩
  | 1 => ⟨2000, 100, 64⟩
  | 2 => ⟨3000, 900, 128⟩
  | 3 => ⟨4000, 100, 192⟩
  | 4 => ⟨5000, 100, 256⟩
  | 5 => ⟨6000, 0, 320⟩
  | 6 => ⟨7000, 100, 384⟩
  | _ + 7 => ⟨0, 0, 0⟩

/-- A data index whose timestamps grow by 1000 per block, every block
written (nonzero duration). -/
def rampIdx : Nat → DataIndexEntry := fun i => ⟨1000 * (i % 8), 1, i % 8⟩

/- * * * The block-processing state machine of transform.c
(`process_block` and its sub-operations). * * * -/

/-- `#define TIMESTAMP_IIR 0.1` of transform.c (the double arithmetic of
the smoothing filter is modelled as exact rationals). -/
def TIMESTAMP_IIR : ℚ := 1 / 10

/-- The configuration fields of `struct disk_header` and the derived
globals (`input_frame_count`, `input_decimation_count`, `timestamp_count`,
`output_id_count`) read by the transform functions; all fixed after
initialisation. -/
structure TransformConfig where
  fa_entry_count : Nat
  input_frame_count : Nat
  input_decimation_count : Nat
  major_block_count : Nat
  major_sample_count : Nat
  first_decimation_log2 : Nat
  second_decimation_log2 : Nat
  dd_sample_count : Nat
  dd_total_count : Nat
  timestamp_count : Nat
  output_id_count : Nat
  archive_mask : Nat

/-- The mutable state of transform.c: the double buffers (the FA and
decimated areas of each, indexed by buffer number and flat entry offset),
the write offsets, the in-memory DD area and its cursor, the
double-decimation accumulators, the timestamp index under construction,
the data index, the current major block, the smoothed duration, and the
log of major-block writes handed to `schedule_write` (block number with
the snapshot of both areas). -/
structure TransformState where
  current_buffer : Nat
  fa_offset : Nat
  d_offset : Nat
  fa_area : Nat → Nat → FaEntry
  d_area : Nat → Nat → DecimatedData
  dd_area : Nat → DecimatedData
  dd_offset : Nat
  double_accumulators : Nat → FaAccum
  first_timestamp : Nat
  timestamp_array : Nat → Int
  timestamp_index : Nat
  data_index : Nat → DataIndexEntry
  current_major_block : Nat
  last_duration : Nat
  disk : List (Nat × (Nat → FaEntry) × (Nat → DecimatedData))

/-- Modelled from the spec: `fa_data_offset` of disk.h — within a major
block each archived id owns a contiguous column of `major_sample_count`
FA entries. -/
def fa_data_offset (cfg : TransformConfig) (offset id : Nat) : Nat :=
  id * cfg.major_sample_count + offset

/-- Modelled from the spec: `d_data_offset` of disk.h — the decimated
area holds one column of `major_sample_count >> first_decimation_log2`
slots per archived id. -/
def d_data_offset (cfg : TransformConfig) (offset id : Nat) : Nat :=
  id * (cfg.major_sample_count >>> cfg.first_decimation_log2) + offset

/-- The `for (id...) if (test_mask_bit...) { ...; written += 1; }` loop
shape shared by `transpose_block` and `decimate_block`: fold `f id written`
over the set ids in ascending order, counting the written columns. -/
def masked_fold_aux {α : Type} (mask : Nat) (f : Nat → Nat → α → α) :
    Nat → Nat → Nat → α → α
  | _, _, 0, a => a
  | id, written, cnt + 1, a =>
    if test_mask_bit mask id then
      masked_fold_aux mask f (id + 1) (written + 1) cnt (f id written a)
    else
      masked_fold_aux mask f (id + 1) written cnt a

/-- Fold over the set ids of `mask` below `n`. -/
def masked_fold {α : Type} (mask n : Nat) (f : Nat → Nat → α → α) (a : α) : α :=
  masked_fold_aux mask f 0 0 n a

/-- `transpose_column` of transform.c: copy `n` entries of one column
into the buffer at `base` (the C walks the input with stride
`FA_ENTRY_COUNT`; the column arrives here as sample number → entry). -/
def transpose_column (n : Nat) (col : Nat → FaEntry) (buf : Nat → FaEntry)
    (base : Nat) : Nat → FaEntry :=
  fun k => if base ≤ k ∧ k < base + n then col (k - base) else buf k

/-- `transpose_block` of transform.c: one column per archived id into the
current buffer at `fa_data_offset(fa_offset, written)`. -/
def transpose_block (cfg : TransformConfig) (st : TransformState)
    (block : Nat → FaEntry) : TransformState :=
  masked_fold cfg.archive_mask cfg.fa_entry_count
    (fun id written st2 =>
      { st2 with fa_area := fun b =>
          if b = st2.current_buffer then
            (transpose_column cfg.input_frame_count
              (fun i => block (id + i * cfg.fa_entry_count))
              (st2.fa_area st2.current_buffer)
              (fa_data_offset cfg st2.fa_offset written))
          else st2.fa_area b })
    st

/-- The loop of `decimate_column` of transform.c: `input_decimation_count`
groups of `2 ^ first_decimation_log2` samples, each put through
`decimate_column_one` into consecutive decimated slots from `base`,
threading the double-decimation accumulator. -/
def decimate_column_loop (cfg : TransformConfig) (col : Nat → FaEntry) (base : Nat) :
    Nat → (Nat → DecimatedData) × FaAccum → (Nat → DecimatedData) × FaAccum
  | 0, s => s
  | i + 1, s =>
    let s2 := decimate_column_loop cfg col base i s
    let r := decimate_column_one (fun j => col ((i <<< cfg.first_decimation_log2) + j))
      s2.2 cfg.first_decimation_log2
    (fun k => if k = base + i then r.1 else s2.1 k, r.2)

/-- `decimate_block` of transform.c: decimate one column per archived id
into the current buffer at `d_data_offset(d_offset, written)`, folding the
group statistics into `double_accumulators[written]`. -/
def decimate_block (cfg : TransformConfig) (st : TransformState)
    (block : Nat → FaEntry) : TransformState :=
  masked_fold cfg.archive_mask cfg.fa_entry_count
    (fun id written st2 =>
      let r := decimate_column_loop cfg (fun s => block (id + s * cfg.fa_entry_count))
        (d_data_offset cfg st2.d_offset written) cfg.input_decimation_count
        (st2.d_area st2.current_buffer, st2.double_accumulators written)
      { st2 with
        d_area := fun b => if b = st2.current_buffer then r.1 else st2.d_area b,
        double_accumulators := fun i =>
          if i = written then r.2 else st2.double_accumulators i })
    st

/-- `advance_block` of transform.c: step the write offsets and report
whether the major block is now full. -/
def advance_block (cfg : TransformConfig) (st : TransformState) :
    TransformState × Bool :=
  ({ st with
      fa_offset := st.fa_offset + cfg.input_frame_count,
      d_offset := st.d_offset + (cfg.input_frame_count >>> cfg.first_decimation_log2) },
   decide (cfg.major_sample_count ≤ st.fa_offset + cfg.input_frame_count))

/-- `reset_block` of transform.c. -/
def reset_block (st : TransformState) : TransformState :=
  { st with fa_offset := 0, d_offset := 0 }

/-- `write_major_block` of transform.c: schedule the current buffer for
writing at the current major block, flip buffers, reset the offsets. -/
def write_major_block (st : TransformState) : TransformState :=
  reset_block
    { st with
        disk := (st.current_major_block,
          st.fa_area st.current_buffer, st.d_area st.current_buffer) :: st.disk,
        current_buffer := 1 - st.current_buffer }

/-- The output loop of `double_decimate_block`: one `compute_result` per
archived id, written at stride `dd_total_count` from the DD cursor. -/
def double_decimate_write (cfg : TransformConfig) (st : TransformState) :
    Nat → (Nat → DecimatedData) → Nat → DecimatedData
  | 0, a => a
  | i + 1, a =>
    let a2 := double_decimate_write cfg st i a
    fun k =>
      if k = st.dd_offset + i * cfg.dd_total_count then
        compute_result (st.double_accumulators i)
          (cfg.first_decimation_log2 + cfg.second_decimation_log2)
      else a2 k

/-- `double_decimate_block` of transform.c. -/
def double_decimate_block (cfg : TransformConfig) (st : TransformState) :
    TransformState :=
  { st with
      dd_area := double_decimate_write cfg st cfg.output_id_count st.dd_area,
      double_accumulators := fun i =>
        if i < cfg.output_id_count then initialise_accum
        else st.double_accumulators i,
      dd_offset := (st.dd_offset + 1) % cfg.dd_total_count }

/-- `reset_double_decimation` of transform.c. -/
def reset_double_decimation (cfg : TransformConfig) (st : TransformState) :
    TransformState :=
  { st with
      dd_offset := st.current_major_block * cfg.dd_sample_count,
      double_accumulators := fun i =>
        if i < cfg.output_id_count then initialise_accum
        else st.double_accumulators i }

/-- `index_minor_block` of transform.c: on the first minor block record
the base timestamp and the id-zero field; append the relative timestamp
(`(int) (timestamp - first_timestamp)`, a uint64 difference truncated to
int32). -/
def index_minor_block (st : TransformState) (block : Nat → FaEntry)
    (timestamp : Nat) : TransformState :=
  let st1 :=
    if st.timestamp_index = 0 then
      { st with
          first_timestamp := timestamp,
          data_index := fun k =>
            if k = st.current_major_block then
              { st.data_index st.current_major_block with
                  id_zero := u32ofInt (block 0).x }
            else st.data_index k }
    else st
  { st1 with
      timestamp_array := fun k =>
        if k = st1.timestamp_index then
          i32ofInt (Int.ofNat (sub64 timestamp st1.first_timestamp))
        else st1.timestamp_array k,
      timestamp_index := st1.timestamp_index + 1 }

/-- `reset_index` of transform.c. -/
def reset_index (st : TransformState) : TransformState :=
  { st with timestamp_index := 0 }

/-- `advance_index` of transform.c as a state transformer: store the
fitted duration and start timestamp in the data index, run the IIR on
the header's smoothed duration, advance the current major block, reset
the timestamp index. -/
def advance_index (cfg : TransformConfig) (st : TransformState) : TransformState :=
  let dur := advance_index_duration st.timestamp_array cfg.timestamp_count
  let ts := advance_index_timestamp st.first_timestamp st.timestamp_array
    cfg.timestamp_count
  { st with
      data_index := fun k =>
        if k = st.current_major_block then
          { st.data_index st.current_major_block with
              duration := dur, timestamp := ts }
        else st.data_index k,
      last_duration := u32ofInt (round ((dur : ℚ) * TIMESTAMP_IIR +
        (st.last_duration : ℚ) * (1 - TIMESTAMP_IIR))),
      current_major_block := (st.current_major_block + 1) % cfg.major_block_count,
      timestamp_index := 0 }

/-- `process_block` of transform.c: a data block is indexed, transposed
and decimated, the offsets advance, the double decimation fires on the
decimation boundary, and a full major block is written out and indexed; a
gap (null block) discards the work so far. -/
def process_block (cfg : TransformConfig) (st : TransformState)
    (block : Option (Nat → FaEntry)) (timestamp : Nat) : TransformState :=
  match block with
  | some b =>
    let st1 := index_minor_block st b timestamp
    let st2 := transpose_block cfg st1 b
    let st3 := decimate_block cfg st2 b
    let p := advance_block cfg st3
    let decimation := 1 <<< (cfg.first_decimation_log2 + cfg.second_decimation_log2)
    let st5 := if p.1.fa_offset &&& (decimation - 1) = 0 then
        double_decimate_block cfg p.1
      else p.1
    if p.2 then advance_index cfg (write_major_block st5) else st5
  | none => reset_double_decimation cfg (reset_index (reset_block st))

/- * * * Header block bookkeeping of disk_writer.c. * * * -/

/-- One `struct block_record` of the file header (disk.h): wall-clock
start/stop seconds and the archive data offsets (off64_t; the stop offset
is written as -1 when a block is opened). -/
structure BlockRecord where
  start_sec : Nat
  stop_sec : Nat
  start_offset : Int
  stop_offset : Int
deriving DecidableEq

/-- The mutable state of disk_writer.c: the in-memory header's block
records and block count plus the write pointers. -/
structure WriterState where
  blocks : Nat → BlockRecord
  block_count : Nat
  write_offset : Int
  old_write_offset : Int
  disk_status : Nat

/-- `expired` of disk_writer.c: is `offset` inside the half-open interval
stepped over since the last flush, accounting for wrap-around. -/
def expired (st : WriterState) (offset : Int) : Bool :=
  if st.old_write_offset ≤ st.write_offset then
    decide (st.old_write_offset < offset ∧ offset ≤ st.write_offset)
  else
    decide (offset ≤ st.write_offset ∨ st.old_write_offset < offset)

/-- The while loop of `expire_archive_blocks`:
`while (block_count > 1 && expired(blocks[block_count - 1].stop_offset))
block_count -= 1`, by recursion on the count. -/
def expire_count (blocks : Nat → BlockRecord) (ex : Int → Bool) : Nat → Nat
  | 0 => 0
  | 1 => 1
  | bc + 2 =>
    if ex (blocks (bc + 1)).stop_offset then expire_count blocks ex (bc + 1)
    else bc + 2

/-- `expire_archive_blocks` of disk_writer.c: drop fully expired oldest
blocks, pull the oldest surviving block's start forward if it expired,
and flush the old write pointer. -/
def expire_archive_blocks (st : WriterState) : WriterState :=
  let bc := expire_count st.blocks (expired st) st.block_count
  let old_start := (st.blocks (bc - 1)).start_offset
  let blocks2 :=
    if expired st old_start ∨ old_start = st.old_write_offset then
      (fun k => if k = bc - 1 then
          { st.blocks (bc - 1) with start_offset := st.write_offset }
        else st.blocks k)
    else st.blocks
  { st with block_count := bc, blocks := blocks2,
            old_write_offset := st.write_offset }

/-- `start_archive_block` of disk_writer.c: shift every record down one
(`memmove` over `MAX_HEADER_BLOCKS - 1` records), bump the count capping
it at `MAX_HEADER_BLOCKS`, and open a fresh record 0 at the current write
offset.  `MAX_HEADER_BLOCKS` comes from disk.h (not among the sources)
and is passed as a parameter. -/
def start_archive_block (MAX now : Nat) (st : WriterState) : WriterState :=
  { st with
      blocks := fun k =>
        if k = 0 then
          { start_sec := now, stop_sec := now,
            start_offset := st.write_offset, stop_offset := -1 }
        else if 1 ≤ k ∧ k < MAX then st.blocks (k - 1)
        else st.blocks k,
      block_count :=
        if MAX < st.block_count + 1 then MAX else st.block_count + 1,
      disk_status := 1 }

/-- `update_header` of disk_writer.c (sans the mmap/fcntl IO): expire,
then stamp block 0's stop second and stop offset when forced or when the
second changed. -/
def update_header (now : Nat) (force_write : Bool) (st : WriterState) :
    WriterState :=
  let st1 := expire_archive_blocks st
  if force_write ∨ now ≠ (st1.blocks 0).stop_sec then
    { st1 with blocks := fun k =>
        if k = 0 then
          { st1.blocks 0 with stop_sec := now, stop_offset := st1.write_offset }
        else st1.blocks k }
  else st1

/-- The header operations the writer thread performs after its initial
`start_archive_block`: advancing the write pointer by one FA block with
wrap-around (the body of `writer_thread`), `update_header`, and
`start_archive_block` (from `get_valid_read_block` on a data gap). -/
inductive WriterOp where
  | write (size : Int)
  | update (now : Nat) (force : Bool)
  | start (now : Nat)

/-- One step of the writer thread on the header state. -/
def applyOp (MAX : Nat) (data_size : Int) (st : WriterState) :
    WriterOp → WriterState
  | .write sz =>
    { st with write_offset :=
        if data_size ≤ st.write_offset + sz then 0 else st.write_offset + sz }
  | .update now force => update_header now force st
  | .start now => start_archive_block MAX now st

/-- A sequence of writer steps. -/
def applyOps (MAX : Nat) (data_size : Int) : WriterState → List WriterOp → WriterState
  | st, [] => st
  | st, op :: ops => applyOps MAX data_size (applyOp MAX data_size st op) ops

/-- A concrete fresh header state (zeroed, as after formatting). -/
def sampleWriterState : WriterState :=
  { blocks := fun _ => ⟨0, 0, 0, 0⟩, block_count := 0,
    write_offset := 0, old_write_offset := 0, disk_status := 0 }

/-- C9: `timestamp_to_block` never reaches the division `/ duration` with
`duration = 0`: the guarded variant never returns `none` and always agrees
with the unguarded function.  The reason is visible in the second guard:
in unsigned arithmetic `timestamp - block_start < duration` forces
`duration > 0`. -/
theorem timestamp_to_block_never_divides_by_zero
    (idx : Nat → DataIndexEntry) (N current msc ts : Nat) (skip_gap : Bool) :
    timestamp_to_block_checked idx N current msc ts skip_gap =
      some (timestamp_to_block idx N current msc ts skip_gap) := by
  simp only [timestamp_to_block_checked, timestamp_to_block]
  by_cases h1 : ts < (idx (binary_search idx N current ts)).timestamp
  · simp [h1]
  · by_cases h2 : sub64 ts (idx (binary_search idx N current ts)).timestamp <
        (idx (binary_search idx N current ts)).duration
    · have hd : (idx (binary_search idx N current ts)).duration ≠ 0 := by
        intro h0
        rw [h0] at h2
        exact Nat.not_lt_zero _ h2
      simp [h1, h2, hd]
    · by_cases h3 : skip_gap <;> simp [h1, h2, h3]

theorem U64_eq : U64 = 18446744073709551616 := by norm_num [U64]

theorem U32_eq : U32 = 4294967296 := by norm_num [U32]

theorem U32_mul_U32 : U32 * U32 = U64 := by norm_num [U32, U64]

theorem sub64_of_le {a b : Nat} (hb : b ≤ a) (ha : a < U64) : sub64 a b = a - b := by
  unfold sub64
  rw [U64_eq] at ha ⊢
  omega

theorem add64_of_lt {a b : Nat} (h : a + b < U64) : add64 a b = a + b := by
  unfold add64
  rw [U64_eq] at h ⊢
  omega

theorem i64_sub64 {a b : Nat} (ha : a < 2 ^ 63) (hb : b < 2 ^ 63) :
    i64 (sub64 a b) = (a : Int) - b := by
  have h63 : (2 : Nat) ^ 63 = 9223372036854775808 := by norm_num
  unfold i64 sub64
  rw [U64_eq, h63]
  rw [h63] at ha
  rw [h63] at hb
  rcases le_or_lt b a with hba | hab
  · have hv : (a + 18446744073709551616 - b) % 18446744073709551616 = a - b := by omega
    rw [hv, if_pos (by omega : a - b < 9223372036854775808)]
    omega
  · have hv : (a + 18446744073709551616 - b) % 18446744073709551616 =
        a + 18446744073709551616 - b := by omega
    rw [hv, if_neg (by omega : ¬ a + 18446744073709551616 - b < 9223372036854775808)]
    omega

/-- C5: case analysis of `timestamp_to_block`.  With the chosen block `b`,
its start timestamp `s` and duration `d`: if `ts < s` the offset is `0`;
if `s ≤ ts < s + d` the offset is `(ts - s) * major_sample_count / d`;
if `s + d ≤ ts` the result is the next block with offset `0` under
`skip_gap`, and otherwise the same block with the last offset
`major_sample_count - 1`. -/
theorem timestamp_to_block_cases
    (idx : Nat → DataIndexEntry) (N current msc ts : Nat) (skip_gap : Bool)
    (hts : ts < U64)
    (hidx : ∀ i, (idx i).timestamp < U64 ∧ (idx i).duration < U32)
    (hmsc : msc < U32) :
    (ts < (idx (binary_search idx N current ts)).timestamp →
      timestamp_to_block idx N current msc ts skip_gap =
        (binary_search idx N current ts, 0)) ∧
    ((idx (binary_search idx N current ts)).timestamp ≤ ts →
      ts < (idx (binary_search idx N current ts)).timestamp +
        (idx (binary_search idx N current ts)).duration →
      timestamp_to_block idx N current msc ts skip_gap =
        (binary_search idx N current ts,
          (ts - (idx (binary_search idx N current ts)).timestamp) * msc /
            (idx (binary_search idx N current ts)).duration)) ∧
    ((idx (binary_search idx N current ts)).timestamp +
        (idx (binary_search idx N current ts)).duration ≤ ts →
      skip_gap = true →
      timestamp_to_block idx N current msc ts skip_gap =
        ((binary_search idx N current ts + 1) % N, 0)) ∧
    ((idx (binary_search idx N current ts)).timestamp +
        (idx (binary_search idx N current ts)).duration ≤ ts →
      skip_gap = false →
      timestamp_to_block idx N current msc ts skip_gap =
        (binary_search idx N current ts, msc - 1)) := by
  set b := binary_search idx N current ts with hbdef
  set s := (idx b).timestamp with hsdef
  set d := (idx b).duration with hddef
  have hdU : d < U32 := (hidx b).2
  refine ⟨?_, ?_, ?_, ?_⟩
  · intro h
    simp [timestamp_to_block, ← hbdef, ← hsdef, h]
  · intro h1 h2
    have hnl : ¬ ts < s := not_lt.2 h1
    have hsub : sub64 ts s = ts - s := sub64_of_le h1 hts
    have hlt : ts - s < d := by omega
    have hdpos : 0 < d := Nat.lt_of_le_of_lt (Nat.zero_le _) hlt
    have hmul : (ts - s) * msc < U64 := by
      calc (ts - s) * msc < U32 * U32 :=
            Nat.mul_lt_mul_of_lt_of_lt (lt_trans hlt hdU) hmsc
        _ = U64 := U32_mul_U32
    have hdiv : (ts - s) * msc / d < U32 := by
      rw [Nat.div_lt_iff_lt_mul hdpos]
      calc (ts - s) * msc < d * U32 := Nat.mul_lt_mul_of_lt_of_lt hlt hmsc
        _ = U32 * d := Nat.mul_comm _ _
    simp only [timestamp_to_block, ← hbdef, ← hsdef, ← hddef, hsub, if_neg hnl,
      if_pos hlt, Nat.mod_eq_of_lt hmul, Nat.mod_eq_of_lt hdiv]
  · intro h1 h2
    have hle : s ≤ ts := by omega
    have hnl : ¬ ts < s := not_lt.2 hle
    have hsub : sub64 ts s = ts - s := sub64_of_le hle hts
    have hge : ¬ ts - s < d := by omega
    simp [timestamp_to_block, ← hbdef, ← hsdef, ← hddef, hnl, hsub, hge, h2]
  · intro h1 h2
    have hle : s ≤ ts := by omega
    have hnl : ¬ ts < s := not_lt.2 hle
    have hsub : sub64 ts s = ts - s := sub64_of_le hle hts
    have hge : ¬ ts - s < d := by omega
    simp [timestamp_to_block, ← hbdef, ← hsdef, ← hddef, hnl, hsub, hge, h2]

theorem sampleIdx_wf : ∀ i, (sampleIdx i).timestamp < U64 ∧ (sampleIdx i).duration < U32 :=
  fun i => match i with
  | 0 => by decide
  | 1 => by decide
  | 2 => by decide
  | 3 => by decide
  | 4 => by decide
  | 5 => by decide
  | 6 => by decide
  | _ + 7 => by
    simp only [sampleIdx]
    decide

theorem timestamp_to_block_cases_witness :
    (2050 < (sampleIdx (binary_search sampleIdx 7 5 2050)).timestamp →
      timestamp_to_block sampleIdx 7 5 16 2050 true =
        (binary_search sampleIdx 7 5 2050, 0)) ∧
    ((sampleIdx (binary_search sampleIdx 7 5 2050)).timestamp ≤ 2050 →
      2050 < (sampleIdx (binary_search sampleIdx 7 5 2050)).timestamp +
        (sampleIdx (binary_search sampleIdx 7 5 2050)).duration →
      timestamp_to_block sampleIdx 7 5 16 2050 true =
        (binary_search sampleIdx 7 5 2050,
          (2050 - (sampleIdx (binary_search sampleIdx 7 5 2050)).timestamp) * 16 /
            (sampleIdx (binary_search sampleIdx 7 5 2050)).duration)) ∧
    ((sampleIdx (binary_search sampleIdx 7 5 2050)).timestamp +
        (sampleIdx (binary_search sampleIdx 7 5 2050)).duration ≤ 2050 →
      true = true →
      timestamp_to_block sampleIdx 7 5 16 2050 true =
        ((binary_search sampleIdx 7 5 2050 + 1) % 7, 0)) ∧
    ((sampleIdx (binary_search sampleIdx 7 5 2050)).timestamp +
        (sampleIdx (binary_search sampleIdx 7 5 2050)).duration ≤ 2050 →
      true = false →
      timestamp_to_block sampleIdx 7 5 16 2050 true =
        (binary_search sampleIdx 7 5 2050, 16 - 1)) :=
  timestamp_to_block_cases sampleIdx 7 5 16 2050 true (by decide) sampleIdx_wf (by decide)

theorem find_gap_aux_step (idx : Nat → DataIndexEntry) (N msc : Nat)
    (check_id0 : Bool) (k start ets eid : Nat) :
    find_gap_aux idx N msc check_id0 (k + 2) start ets eid =
      (if (check_id0 &&
            decide ((idx (if start + 1 = N then 0 else start + 1)).id_zero ≠ eid)) ||
          decide (i64 (sub64 (idx (if start + 1 = N then 0 else start + 1)).timestamp ets) <
            -(MAX_DELTA_T : Int)) ||
          decide ((MAX_DELTA_T : Int) <
            i64 (sub64 (idx (if start + 1 = N then 0 else start + 1)).timestamp ets)) then
        (true, if start + 1 = N then 0 else start + 1, k + 1)
      else
        find_gap_aux idx N msc check_id0 (k + 1)
          (if start + 1 = N then 0 else start + 1)
          (add64 (idx (if start + 1 = N then 0 else start + 1)).timestamp
            (idx (if start + 1 = N then 0 else start + 1)).duration)
          (((idx (if start + 1 = N then 0 else start + 1)).id_zero + msc) % U32)) := rfl

theorem next_pos_eq {start N : Nat} (h : start < N) :
    (if start + 1 = N then 0 else start + 1) = (start + 1) % N := by
  split
  · next he =>
    rw [he, Nat.mod_self]
  · next he => exact (Nat.mod_eq_of_lt (by omega)).symm

theorem pos_shift (start j N : Nat) :
    ((start + 1) % N + j) % N = (start + 1 + j) % N := Nat.mod_add_mod _ _ _

theorem pos_shift1 (start j N : Nat) :
    ((start + 1) % N + j + 1) % N = (start + j + 2) % N := by
  have h : (start + 1) % N + j + 1 = (start + 1) % N + (j + 1) := by ring
  rw [h, Nat.mod_add_mod]
  congr 1
  ring

/-- The gap test computed by the `find_gap` loop body agrees with
`gapBetween` as long as timestamps fit comfortably in 64 bits. -/
theorem find_gap_cond_iff (idx : Nat → DataIndexEntry) (msc : Nat)
    (check_id0 : Bool) (p q : Nat)
    (hidx : ∀ i, (idx i).timestamp < 2 ^ 62 ∧ (idx i).duration < U32) :
    (((check_id0 && decide ((idx q).id_zero ≠ ((idx p).id_zero + msc) % U32)) ||
      decide (i64 (sub64 (idx q).timestamp
          (add64 (idx p).timestamp (idx p).duration)) < -(MAX_DELTA_T : Int)) ||
      decide ((MAX_DELTA_T : Int) < i64 (sub64 (idx q).timestamp
          (add64 (idx p).timestamp (idx p).duration)))) = true) ↔
      gapBetween idx msc check_id0 p q := by
  have h62 : (2 : Nat) ^ 62 = 4611686018427387904 := by norm_num
  have hsum : (idx p).timestamp + (idx p).duration < U64 := by
    have h1 := (hidx p).1
    have h2 := (hidx p).2
    rw [h62] at h1
    rw [U32_eq] at h2
    rw [U64_eq]
    omega
  have hadd : add64 (idx p).timestamp (idx p).duration =
      (idx p).timestamp + (idx p).duration := add64_of_lt hsum
  have hq63 : (idx q).timestamp < 2 ^ 63 := by
    have := (hidx q).1
    rw [h62] at this
    norm_num
    omega
  have hp63 : (idx p).timestamp + (idx p).duration < 2 ^ 63 := by
    have h1 := (hidx p).1
    have h2 := (hidx p).2
    rw [h62] at h1
    rw [U32_eq] at h2
    norm_num
    omega
  rw [hadd, i64_sub64 hq63 hp63]
  unfold gapBetween
  simp only [Bool.or_eq_true, Bool.and_eq_true, decide_eq_true_eq]
  push_cast
  tauto

/-- C6: `find_gap(check_id0, start, k)` reports a gap exactly when some
pair of consecutive blocks among the `k` walked blocks violates the
expected progression: start timestamp off by more than `MAX_DELTA_T`
microseconds from the previous `timestamp + duration`, or (with
`check_id0`) an id-zero that is not the previous id-zero advanced by
`major_sample_count`. -/
theorem find_gap_iff_gap_exists
    (idx : Nat → DataIndexEntry) (N msc : Nat) (check_id0 : Bool)
    (start k : Nat) (hstart : start < N)
    (hidx : ∀ i, (idx i).timestamp < 2 ^ 62 ∧ (idx i).duration < U32) :
    ((find_gap idx N msc check_id0 start k).1 = true ↔
      ∃ j < k - 1, gapBetween idx msc check_id0 ((start + j) % N) ((start + j + 1) % N)) := by
  induction k generalizing start with
  | zero => simp [find_gap, find_gap_aux]
  | succ k ih =>
    cases k with
    | zero => simp [find_gap, find_gap_aux]
    | succ k' =>
      have hN : 0 < N := Nat.lt_of_le_of_lt (Nat.zero_le _) hstart
      rw [show k' + 1 + 1 = k' + 2 from rfl]
      unfold find_gap
      rw [find_gap_aux_step, next_pos_eq hstart]
      have hs1 : (start + 1) % N < N := Nat.mod_lt _ hN
      have hcond := find_gap_cond_iff idx msc check_id0 start ((start + 1) % N) hidx
      have hstart0 : (start + 0) % N = start := by
        rw [Nat.add_zero]
        exact Nat.mod_eq_of_lt hstart
      by_cases hC : gapBetween idx msc check_id0 start ((start + 1) % N)
      · rw [if_pos (hcond.2 hC)]
        refine iff_of_true rfl ⟨0, by omega, ?_⟩
        rw [hstart0]
        exact hC
      · rw [if_neg (fun h => hC (hcond.1 h))]
        have hrec : find_gap_aux idx N msc check_id0 (k' + 1) ((start + 1) % N)
            (add64 (idx ((start + 1) % N)).timestamp (idx ((start + 1) % N)).duration)
            (((idx ((start + 1) % N)).id_zero + msc) % U32) =
            find_gap idx N msc check_id0 ((start + 1) % N) (k' + 1) := rfl
        rw [hrec, ih ((start + 1) % N) hs1]
        constructor
        · rintro ⟨j, hj, hgap⟩
          refine ⟨j + 1, by omega, ?_⟩
          rw [show start + (j + 1) + 1 = start + j + 2 from by ring,
            show start + (j + 1) = start + 1 + j from by ring,
            ← pos_shift, ← pos_shift1]
          exact hgap
        · rintro ⟨j, hj, hgap⟩
          rcases j with _ | j'
          · exfalso
            apply hC
            rw [hstart0] at hgap
            exact hgap
          · refine ⟨j', by omega, ?_⟩
            rw [pos_shift, pos_shift1]
            rw [show start + (j' + 1) + 1 = start + j' + 2 from by ring,
              show start + (j' + 1) = start + 1 + j' from by ring] at hgap
            exact hgap

theorem sampleIdx_small :
    ∀ i, (sampleIdx i).timestamp < 2 ^ 62 ∧ (sampleIdx i).duration < U32 :=
  fun i => match i with
  | 0 => by decide
  | 1 => by decide
  | 2 => by decide
  | 3 => by decide
  | 4 => by decide
  | 5 => by decide
  | 6 => by decide
  | _ + 7 => by
    simp only [sampleIdx]
    decide

theorem find_gap_iff_gap_exists_witness :
    (find_gap sampleIdx 7 64 true 0 3).1 = true ↔
      ∃ j < 3 - 1, gapBetween sampleIdx 64 true ((0 + j) % 7) ((0 + j + 1) % 7) :=
  find_gap_iff_gap_exists sampleIdx 7 64 true 0 3 (by decide) sampleIdx_small

theorem binarySearchLoop_step (idx : Nat → DataIndexEntry) (N ts fuel low high : Nat) :
    binarySearchLoop idx N ts (fuel + 1) low high =
      if (low + 1) % N = high then (low, high)
      else if ts < (idx (if low < high then (low + high) / 2
          else ((low + high + N) / 2) % N)).timestamp then
        binarySearchLoop idx N ts fuel low
          (if low < high then (low + high) / 2 else ((low + high + N) / 2) % N)
      else
        binarySearchLoop idx N ts fuel
          (if low < high then (low + high) / 2 else ((low + high + N) / 2) % N) high := rfl

/-- The exit condition of the cyclic binary search, read on the virtual
axis based at `low0`: the successor of position `a` is position `b`
exactly when `a + 1 = b`, as long as the two positions are less than a
full cycle apart. -/
theorem cyclic_exit (low0 a b N : Nat) (hab : a < b) (hbN : b - a < N) :
    (((low0 + a) % N + 1) % N = (low0 + b) % N) ↔ a + 1 = b := by
  constructor
  · intro h
    rw [Nat.mod_add_mod] at h
    have h2 : (a + 1) ≡ b [MOD N] := Nat.ModEq.add_left_cancel' low0 h
    have h3 : N ∣ (b - (a + 1)) := (Nat.modEq_iff_dvd' (by omega)).1 h2
    have h4 : b - (a + 1) < N := by omega
    have h5 := Nat.eq_zero_of_dvd_of_lt h3 h4
    omega
  · intro h
    rw [Nat.mod_add_mod, show low0 + a + 1 = low0 + b from by omega]

/-- The midpoint computation of the cyclic binary search: both branches of
the C expression compute the position halfway along the virtual axis. -/
theorem cyclic_mid (low0 a b N : Nat) (hN : 0 < N) (hab : a < b) (hbN : b - a < N) :
    (if (low0 + a) % N < (low0 + b) % N
     then ((low0 + a) % N + (low0 + b) % N) / 2
     else ((low0 + a) % N + (low0 + b) % N + N) / 2 % N) =
    (low0 + (a + (b - a) / 2)) % N := by
  have hla : (low0 + a) % N < N := Nat.mod_lt _ hN
  have hlb : (low0 + b) % N = ((low0 + a) % N + (b - a)) % N := by
    rw [Nat.mod_add_mod, show low0 + a + (b - a) = low0 + b from by omega]
  have hrhs : (low0 + (a + (b - a) / 2)) % N = ((low0 + a) % N + (b - a) / 2) % N := by
    rw [Nat.mod_add_mod, show low0 + a + (b - a) / 2 = low0 + (a + (b - a) / 2) from by omega]
  rcases lt_or_ge ((low0 + a) % N + (b - a)) N with hnow | hwrap
  · have hlb2 : (low0 + b) % N = (low0 + a) % N + (b - a) := by
      rw [hlb]
      exact Nat.mod_eq_of_lt hnow
    rw [hlb2, if_pos (by omega), hrhs,
      Nat.mod_eq_of_lt (by omega : (low0 + a) % N + (b - a) / 2 < N)]
    omega
  · have hlb2 : (low0 + b) % N = (low0 + a) % N + (b - a) - N := by
      rw [hlb, Nat.mod_eq_sub_mod hwrap]
      exact Nat.mod_eq_of_lt (by omega)
    rw [hlb2, if_neg (by omega), hrhs]
    have harg : ((low0 + a) % N + ((low0 + a) % N + (b - a) - N) + N) / 2 =
        (low0 + a) % N + (b - a) / 2 := by omega
    rw [harg]

/-- Specification of the `while` loop of `binary_search`: starting from
virtual positions `a < b ≤ M` (positions are mapped to actual block
numbers by `j ↦ (low0 + j) % N`), if the entry at position `a` has
timestamp at most `ts` and either `b = M` (the never-inspected upper
bound) or the entry at position `b` has timestamp above `ts`, the loop
lands on a position `a'` whose entry is at most `ts` while its successor
is past `ts` (or is the upper bound), returning the actual index pair
`(low, high)` with `high` one past `low`. -/
theorem binarySearchLoop_spec (idx : Nat → DataIndexEntry) (N ts low0 M : Nat)
    (hMN : M < N) :
    ∀ fuel a b, a < b → b ≤ M → b - a ≤ fuel →
      (idx ((low0 + a) % N)).timestamp ≤ ts →
      (b = M ∨ ts < (idx ((low0 + b) % N)).timestamp) →
      ∃ a', a ≤ a' ∧ a' < b ∧
        binarySearchLoop idx N ts fuel ((low0 + a) % N) ((low0 + b) % N) =
          ((low0 + a') % N, (low0 + a' + 1) % N) ∧
        (idx ((low0 + a') % N)).timestamp ≤ ts ∧
        (a' + 1 = M ∨ ts < (idx ((low0 + a' + 1) % N)).timestamp) := by
  intro fuel
  induction fuel with
  | zero =>
    intro a b hab _ hf _ _
    omega
  | succ fuel ih =>
    intro a b hab hbM hf hfa hfb
    by_cases hexit : a + 1 = b
    · subst hexit
      refine ⟨a, le_refl a, by omega, ?_, hfa, hfb⟩
      rw [binarySearchLoop_step,
        if_pos ((cyclic_exit low0 a (a + 1) N (by omega) (by omega)).2 rfl)]
      rfl
    · have hcond : ¬ (((low0 + a) % N + 1) % N = (low0 + b) % N) :=
        fun h => hexit ((cyclic_exit low0 a b N hab (by omega)).1 h)
      rw [binarySearchLoop_step, if_neg hcond,
        cyclic_mid low0 a b N (by omega) hab (by omega)]
      have hac : a < a + (b - a) / 2 ∧ a + (b - a) / 2 < b := by omega
      by_cases hts2 : ts < (idx ((low0 + (a + (b - a) / 2)) % N)).timestamp
      · rw [if_pos hts2]
        obtain ⟨a', h1, h2, h3, h4, h5⟩ :=
          ih a (a + (b - a) / 2) (by omega) (by omega) (by omega) hfa (Or.inr hts2)
        exact ⟨a', h1, by omega, h3, h4, h5⟩
      · rw [if_neg hts2]
        obtain ⟨a', h1, h2, h3, h4, h5⟩ :=
          ih (a + (b - a) / 2) b (by omega) hbM (by omega) (not_lt.1 hts2) hfb
        exact ⟨a', by omega, h2, h3, h4, h5⟩

/-- C4 (amended): when the index timestamps are non-decreasing along the
cyclic search range `[current + 1 + INDEX_SKIP, current)` of length
`N - 3` and `ts` is at least the timestamp of the first searched block,
`binary_search` finds the greatest position `j` in that range whose
timestamp is at most `ts`, returning that block, except that when the
found block has `duration = 0` it returns the following block (the final
`high` bound of the loop). -/
theorem binary_search_greatest_le
    (idx : Nat → DataIndexEntry) (N current ts : Nat)
    (hN : 4 ≤ N) (hcur : current < N)
    (mono : ∀ j1, j1 < N - 3 → ∀ j2, j2 < N - 3 → j1 ≤ j2 →
      (idx ((current + 1 + INDEX_SKIP + j1) % N)).timestamp ≤
        (idx ((current + 1 + INDEX_SKIP + j2) % N)).timestamp)
    (hts : (idx ((current + 1 + INDEX_SKIP) % N)).timestamp ≤ ts) :
    ∃ j < N - 3,
      (idx ((current + 1 + INDEX_SKIP + j) % N)).timestamp ≤ ts ∧
      (∀ j2, j < j2 → j2 < N - 3 →
        ts < (idx ((current + 1 + INDEX_SKIP + j2) % N)).timestamp) ∧
      binary_search idx N current ts =
        (if (idx ((current + 1 + INDEX_SKIP + j) % N)).duration = 0
         then (current + 1 + INDEX_SKIP + j + 1) % N
         else (current + 1 + INDEX_SKIP + j) % N) := by
  have hskip : INDEX_SKIP = 2 := rfl
  obtain ⟨a', h0a, ha3, heq, hle, hlast⟩ :=
    binarySearchLoop_spec idx N ts (current + 1 + INDEX_SKIP) (N - 3)
      (by omega) N 0 (N - 3) (by omega) (le_refl _) (by omega) hts (Or.inl rfl)
  have e1 : (current + 1 + INDEX_SKIP + 0) % N = (current + 1 + INDEX_SKIP) % N := by
    rw [Nat.add_zero]
  have e2 : (current + 1 + INDEX_SKIP + (N - 3)) % N = current := by
    rw [show current + 1 + INDEX_SKIP + (N - 3) = current + N from by rw [hskip]; omega,
      Nat.add_mod_right]
    exact Nat.mod_eq_of_lt hcur
  rw [e1, e2] at heq
  refine ⟨a', ha3, hle, ?_, ?_⟩
  · intro j2 hj hj2
    rcases hlast with hM | hlt
    · omega
    · calc ts < (idx ((current + 1 + INDEX_SKIP + a' + 1) % N)).timestamp := hlt
        _ ≤ (idx ((current + 1 + INDEX_SKIP + j2) % N)).timestamp := by
            have := mono (a' + 1) (by omega) j2 hj2 (by omega)
            exact this
  · simp only [binary_search, heq]

/-- C4 counterexample: on an archive whose searched range holds written
blocks (all durations nonzero) with timestamps 3000..7000, a query at
`ts = 0` (earlier than every searched block) returns block 3, whose
timestamp 3000 is not `≤ 0` — so `binary_search` can return an index with
`data_index[i].timestamp > ts` even though the archive contains written
blocks. -/
theorem binary_search_before_archive_counterexample :
    binary_search rampIdx 8 0 0 = 3 ∧
    (∀ i, i < 8 → (rampIdx i).duration ≠ 0) ∧
    ¬ (rampIdx (binary_search rampIdx 8 0 0)).timestamp ≤ 0 := by decide

theorem binary_search_greatest_le_witness :
    ∃ j < 8 - 3,
      (rampIdx ((0 + 1 + INDEX_SKIP + j) % 8)).timestamp ≤ 3500 ∧
      (∀ j2, j < j2 → j2 < 8 - 3 →
        3500 < (rampIdx ((0 + 1 + INDEX_SKIP + j2) % 8)).timestamp) ∧
      binary_search rampIdx 8 0 3500 =
        (if (rampIdx ((0 + 1 + INDEX_SKIP + j) % 8)).duration = 0
         then (0 + 1 + INDEX_SKIP + j + 1) % 8
         else (0 + 1 + INDEX_SKIP + j) % 8) :=
  binary_search_greatest_le rampIdx 8 0 3500 (by decide) (by decide)
    (by decide) (by decide)

theorem i32ofInt_eq_self {v : Int} (h1 : -(2 ^ 31) ≤ v) (h2 : v ≤ 2 ^ 31 - 1) :
    i32ofInt v = v := by
  unfold i32ofInt
  have e1 : (2:Int) ^ 31 = 2147483648 := by norm_num
  have e2 : (2:Int) ^ 32 = 4294967296 := by norm_num
  rw [e1, e2]
  rw [e1] at h1 h2
  omega

theorem asr_spec (S : Int) (s : Nat)
    (hlow : -(2 ^ 31) * 2 ^ s ≤ S) (hhigh : S ≤ (2 ^ 31 - 1) * 2 ^ s) :
    i32ofInt (asr S s) = asr S s ∧
    |((asr S s : Int) : ℝ) - (S : ℝ) / (2 ^ s : ℝ)| ≤ 1 := by
  have hb : (0:Int) < 2 ^ s := by positivity
  have hfd : asr S s = S / 2 ^ s := Int.fdiv_eq_ediv S (le_of_lt hb)
  have hmod := Int.ediv_add_emod S ((2:Int) ^ s)
  have hr0 : 0 ≤ S % 2 ^ s := Int.emod_nonneg S (ne_of_gt hb)
  have hrlt : S % 2 ^ s < 2 ^ s := Int.emod_lt_of_pos S hb
  constructor
  · rw [hfd]
    refine i32ofInt_eq_self ?_ ?_
    · by_contra hc
      push_neg at hc
      have h1 : S / 2 ^ s + 1 ≤ -(2 ^ 31) := by omega
      have h2 : 2 ^ s * (S / 2 ^ s + 1) ≤ 2 ^ s * (-(2 ^ 31)) :=
        mul_le_mul_of_nonneg_left h1 (le_of_lt hb)
      nlinarith
    · by_contra hc
      push_neg at hc
      have h1 : 2 ^ 31 ≤ S / 2 ^ s := by omega
      have h2 : 2 ^ s * (2 ^ 31) ≤ 2 ^ s * (S / 2 ^ s) :=
        mul_le_mul_of_nonneg_left h1 (le_of_lt hb)
      nlinarith
  · rw [hfd]
    have hbR : (0:ℝ) < (2:ℝ) ^ s := by positivity
    have hS : (S : ℝ) = (2:ℝ) ^ s * ((S / 2 ^ s : Int) : ℝ) + ((S % 2 ^ s : Int) : ℝ) := by
      exact_mod_cast (congrArg (fun z : Int => (z : ℝ)) hmod).symm
    rw [hS, add_div, mul_div_cancel_left₀ _ (ne_of_gt hbR)]
    have habs : |((S / 2 ^ s : Int) : ℝ) -
        (((S / 2 ^ s : Int) : ℝ) + ((S % 2 ^ s : Int) : ℝ) / (2:ℝ) ^ s)| =
        ((S % 2 ^ s : Int) : ℝ) / (2:ℝ) ^ s := by
      rw [sub_add_cancel_left, abs_neg, abs_of_nonneg]
      exact div_nonneg (by exact_mod_cast hr0) (le_of_lt hbR)
    rw [habs, div_le_one hbR]
    have : ((S % 2 ^ s : Int) : ℝ) < ((2 ^ s : Int) : ℝ) := by exact_mod_cast hrlt
    push_cast at this ⊢
    linarith

/-- For any nonnegative real, the floor of its square root equals the
floor of the square root of its floor. -/
theorem floor_sqrt_floor {v : ℝ} (hv : 0 ≤ v) :
    ⌊Real.sqrt v⌋ = ⌊Real.sqrt ((⌊v⌋.toNat : ℕ) : ℝ)⌋ := by
  have hfl : ((⌊v⌋.toNat : ℕ) : ℝ) ≤ v := by
    have h1 : (⌊v⌋ : ℝ) ≤ v := Int.floor_le v
    have h2 : 0 ≤ ⌊v⌋ := Int.floor_nonneg.2 hv
    have : ((⌊v⌋.toNat : ℕ) : ℝ) = ((⌊v⌋ : Int) : ℝ) := by
      exact_mod_cast congrArg (fun z : Int => (z : ℝ)) (Int.toNat_of_nonneg h2)
    rw [this]
    exact h1
  refine le_antisymm ?_ (Int.floor_le_floor (Real.sqrt_le_sqrt hfl))
  have hk0 : 0 ≤ ⌊Real.sqrt v⌋ := Int.floor_nonneg.2 (Real.sqrt_nonneg v)
  refine Int.le_floor.2 ?_
  rw [Real.le_sqrt (by exact_mod_cast hk0) (by positivity)]
  have hsq : ((⌊Real.sqrt v⌋ : ℝ)) ^ 2 ≤ v := by
    have h1 : (⌊Real.sqrt v⌋ : ℝ) ≤ Real.sqrt v := Int.floor_le _
    calc ((⌊Real.sqrt v⌋ : ℝ)) ^ 2 ≤ Real.sqrt v ^ 2 := by
          refine pow_le_pow_left₀ (by exact_mod_cast hk0) h1 2
      _ = v := Real.sq_sqrt hv
  have hint : (⌊Real.sqrt v⌋ : ℝ) ^ 2 ≤ ((⌊v⌋ : Int) : ℝ) := by
    have : ((⌊Real.sqrt v⌋ ^ 2 : Int) : ℝ) ≤ v := by push_cast; exact hsq
    exact_mod_cast Int.le_floor.2 this
  have h2 : 0 ≤ ⌊v⌋ := Int.floor_nonneg.2 hv
  have : ((⌊v⌋ : Int) : ℝ) = ((⌊v⌋.toNat : ℕ) : ℝ) := by exact_mod_cast (Int.toNat_of_nonneg h2).symm
  rw [this] at hint
  exact hint

/-- Core rounding fact for the standard deviation bound: if
`0 ≤ a ≤ b` and `b^2 ≤ a^2 + 1` then the truncated `a` and the rounded
`b` differ by at most 1. -/
theorem floor_round_sqrt_close (a b : ℝ) (ha : 0 ≤ a) (hab : a ≤ b)
    (hsq : b ^ 2 ≤ a ^ 2 + 1) :
    |((⌊a⌋ : Int) : ℝ) - ((round b : Int) : ℝ)| ≤ 1 := by
  have hL0 : (0:ℝ) ≤ (⌊a⌋ : ℝ) := by exact_mod_cast Int.floor_nonneg.2 ha
  have hlower : (⌊a⌋ : Int) ≤ round b := by
    rw [round_eq]
    calc (⌊a⌋ : Int) ≤ ⌊b⌋ := Int.floor_le_floor hab
      _ ≤ ⌊b + 1 / 2⌋ := Int.floor_le_floor (by linarith)
  have hupper : (round b : Int) ≤ ⌊a⌋ + 1 := by
    by_contra hc
    push_neg at hc
    have hc2 : (⌊a⌋ : Int) + 2 ≤ round b := by omega
    have hbr : |b - (round b : ℝ)| ≤ 1 / 2 := abs_sub_round b
    have hcR : ((⌊a⌋ : Int) : ℝ) + 2 ≤ ((round b : Int) : ℝ) := by exact_mod_cast hc2
    have hb2 : ((⌊a⌋ : Int) : ℝ) + 3 / 2 ≤ b := by
      have := abs_le.1 hbr
      linarith [this.1, this.2]
    have ha2 : a < ((⌊a⌋ : Int) : ℝ) + 1 := Int.lt_floor_add_one a
    nlinarith [hL0, sq_nonneg a, sq_nonneg b]
  have h1 : ((⌊a⌋ : Int) : ℝ) ≤ ((round b : Int) : ℝ) := by exact_mod_cast hlower
  have h2 : ((round b : Int) : ℝ) ≤ ((⌊a⌋ : Int) : ℝ) + 1 := by exact_mod_cast hupper
  rw [abs_le]
  constructor <;> linarith

/-- The value computed by `compute_std` is within 1 of the rounded true
standard deviation, whenever the true variance is nonnegative (which is
automatic when `SQ` and `S` are the sum of squares and the sum of `2^s`
samples). -/
theorem compute_std_close (SQ : Nat) (S : Int) (s : Nat)
    (hvar : 0 ≤ (SQ : ℝ) / (2 ^ s : ℝ) - ((S : ℝ) / (2 ^ s : ℝ)) ^ 2) :
    |((compute_std SQ S s : Int) : ℝ) -
      ((round (Real.sqrt ((SQ : ℝ) / (2 ^ s : ℝ) - ((S : ℝ) / (2 ^ s : ℝ)) ^ 2)) : Int) : ℝ)| ≤ 1 := by
  have hps : (0:ℝ) < (2:ℝ) ^ s := by positivity
  have hpsN : 0 < (2:ℕ) ^ s := Nat.pos_pow_of_pos s (by norm_num)
  have hFle : ((SQ >>> s : ℕ) : ℝ) * (2:ℝ) ^ s ≤ (SQ : ℝ) := by
    rw [Nat.shiftRight_eq_div_pow]
    exact_mod_cast Nat.div_mul_le_self SQ (2 ^ s)
  have hFgt : (SQ : ℝ) < (((SQ >>> s : ℕ) : ℝ) + 1) * (2:ℝ) ^ s := by
    rw [Nat.shiftRight_eq_div_pow]
    have h1 : SQ < (SQ / 2 ^ s + 1) * 2 ^ s := by
      have h2 := Nat.div_add_mod SQ (2 ^ s)
      have h3 : SQ % 2 ^ s < 2 ^ s := Nat.mod_lt SQ hpsN
      calc SQ = 2 ^ s * (SQ / 2 ^ s) + SQ % 2 ^ s := h2.symm
        _ < 2 ^ s * (SQ / 2 ^ s) + 2 ^ s := by omega
        _ = (SQ / 2 ^ s + 1) * 2 ^ s := by ring
    exact_mod_cast h1
  have hTR1 : ((SQ >>> s : ℕ) : ℝ) - ((S : ℝ) / (2 ^ s : ℝ)) ^ 2 ≤
      (SQ : ℝ) / (2 ^ s : ℝ) - ((S : ℝ) / (2 ^ s : ℝ)) ^ 2 := by
    have : ((SQ >>> s : ℕ) : ℝ) ≤ (SQ : ℝ) / (2:ℝ) ^ s := by
      rw [le_div_iff₀ hps]
      exact hFle
    linarith
  have hTR2 : (SQ : ℝ) / (2 ^ s : ℝ) - ((S : ℝ) / (2 ^ s : ℝ)) ^ 2 <
      (((SQ >>> s : ℕ) : ℝ) - ((S : ℝ) / (2 ^ s : ℝ)) ^ 2) + 1 := by
    have : (SQ : ℝ) / (2:ℝ) ^ s < ((SQ >>> s : ℕ) : ℝ) + 1 := by
      rw [div_lt_iff₀ hps]
      exact hFgt
    linarith
  have hcast : ((((SQ >>> s : ℕ) : ℚ) -
      (S : ℚ) / ((1 <<< s : ℕ) : ℚ) * ((S : ℚ) / ((1 <<< s : ℕ) : ℚ)) : ℚ) : ℝ) =
      ((SQ >>> s : ℕ) : ℝ) - ((S : ℝ) / (2 ^ s : ℝ)) ^ 2 := by
    rw [Nat.one_shiftLeft]
    push_cast
    ring
  simp only [compute_std]
  split
  · next hpos =>
    have hRr : (0:ℝ) < ((SQ >>> s : ℕ) : ℝ) - ((S : ℝ) / (2 ^ s : ℝ)) ^ 2 := by
      rw [← hcast]
      exact_mod_cast hpos
    have hfloor_eq : ⌊((SQ >>> s : ℕ) : ℝ) - ((S : ℝ) / (2 ^ s : ℝ)) ^ 2⌋ =
        ⌊((SQ >>> s : ℕ) : ℚ) -
          (S : ℚ) / ((1 <<< s : ℕ) : ℚ) * ((S : ℚ) / ((1 <<< s : ℕ) : ℚ))⌋ := by
      rw [← hcast, Rat.floor_cast]
    have h1 : ((Nat.sqrt (⌊((SQ >>> s : ℕ) : ℚ) -
        (S : ℚ) / ((1 <<< s : ℕ) : ℚ) * ((S : ℚ) / ((1 <<< s : ℕ) : ℚ))⌋.toNat) : ℕ) : Int) =
        ⌊Real.sqrt (((SQ >>> s : ℕ) : ℝ) - ((S : ℝ) / (2 ^ s : ℝ)) ^ 2)⌋ := by
      rw [floor_sqrt_floor hRr.le, hfloor_eq, Real.floor_real_sqrt_eq_nat_sqrt]
    rw [h1]
    refine floor_round_sqrt_close _ _ (Real.sqrt_nonneg _) (Real.sqrt_le_sqrt hTR1) ?_
    rw [Real.sq_sqrt hvar, Real.sq_sqrt hRr.le]
    linarith
  · next hneg =>
    push_neg at hneg
    have hRr : ((SQ >>> s : ℕ) : ℝ) - ((S : ℝ) / (2 ^ s : ℝ)) ^ 2 ≤ 0 := by
      rw [← hcast]
      exact_mod_cast hneg
    have hT1 : (SQ : ℝ) / (2 ^ s : ℝ) - ((S : ℝ) / (2 ^ s : ℝ)) ^ 2 < 1 := by linarith
    have hb1 : Real.sqrt ((SQ : ℝ) / (2 ^ s : ℝ) - ((S : ℝ) / (2 ^ s : ℝ)) ^ 2) < 1 := by
      have h := Real.sqrt_lt_sqrt hvar hT1
      rwa [Real.sqrt_one] at h
    have hb0 : 0 ≤ Real.sqrt ((SQ : ℝ) / (2 ^ s : ℝ) - ((S : ℝ) / (2 ^ s : ℝ)) ^ 2) :=
      Real.sqrt_nonneg _
    have hr0 : 0 ≤ round (Real.sqrt ((SQ : ℝ) / (2 ^ s : ℝ) - ((S : ℝ) / (2 ^ s : ℝ)) ^ 2)) := by
      rw [round_eq]
      refine Int.le_floor.2 ?_
      push_cast
      linarith
    have hr1 : round (Real.sqrt ((SQ : ℝ) / (2 ^ s : ℝ) - ((S : ℝ) / (2 ^ s : ℝ)) ^ 2)) ≤ 1 := by
      rw [round_eq]
      have : ⌊Real.sqrt ((SQ : ℝ) / (2 ^ s : ℝ) - ((S : ℝ) / (2 ^ s : ℝ)) ^ 2) + 1 / 2⌋ < 2 := by
        refine Int.floor_lt.2 ?_
        push_cast
        linarith
      omega
    have c1 : ((round (Real.sqrt ((SQ : ℝ) / (2 ^ s : ℝ) -
        ((S : ℝ) / (2 ^ s : ℝ)) ^ 2)) : Int) : ℝ) ≤ 1 := by exact_mod_cast hr1
    have c0 : (0:ℝ) ≤ ((round (Real.sqrt ((SQ : ℝ) / (2 ^ s : ℝ) -
        ((S : ℝ) / (2 ^ s : ℝ)) ^ 2)) : Int) : ℝ) := by exact_mod_cast hr0
    rw [abs_le]
    constructor <;> push_cast <;> linarith

theorem accumulateColumn_sumx (col : Nat → FaEntry) :
    ∀ n, (accumulateColumn col n).sumx = ∑ i ∈ Finset.range n, (col i).x := by
  intro n
  induction n with
  | zero => simp [accumulateColumn, initialise_accum]
  | succ n ih => simp [accumulateColumn, accum_xy, Finset.sum_range_succ, ih]

theorem accumulateColumn_sumy (col : Nat → FaEntry) :
    ∀ n, (accumulateColumn col n).sumy = ∑ i ∈ Finset.range n, (col i).y := by
  intro n
  induction n with
  | zero => simp [accumulateColumn, initialise_accum]
  | succ n ih => simp [accumulateColumn, accum_xy, Finset.sum_range_succ, ih]

theorem accumulateColumn_sum_sq_x (col : Nat → FaEntry) :
    ∀ n, (accumulateColumn col n).sum_sq_x =
      ∑ i ∈ Finset.range n, ((col i).x * (col i).x).toNat := by
  intro n
  induction n with
  | zero => simp [accumulateColumn, initialise_accum]
  | succ n ih => simp [accumulateColumn, accum_xy, Finset.sum_range_succ, ih]

theorem accumulateColumn_sum_sq_y (col : Nat → FaEntry) :
    ∀ n, (accumulateColumn col n).sum_sq_y =
      ∑ i ∈ Finset.range n, ((col i).y * (col i).y).toNat := by
  intro n
  induction n with
  | zero => simp [accumulateColumn, initialise_accum]
  | succ n ih => simp [accumulateColumn, accum_xy, Finset.sum_range_succ, ih]

theorem accumulateColumn_minx (col : Nat → FaEntry) :
    ∀ n, 1 ≤ n → (∀ i, i < n → (col i).x ≤ INT32_MAX) →
      (∀ i, i < n → (accumulateColumn col n).minx ≤ (col i).x) ∧
      (∃ i, i < n ∧ (accumulateColumn col n).minx = (col i).x) := by
  intro n
  induction n with
  | zero => omega
  | succ n ih =>
    intro _ hbound
    cases Nat.eq_zero_or_pos n with
    | inl h0 =>
      subst h0
      have hx0 := hbound 0 (by omega)
      have hval : (accumulateColumn col 1).minx = (col 0).x := by
        simp only [accumulateColumn, accum_xy, initialise_accum]
        split
        · rfl
        · next h => omega
      refine ⟨?_, 0, by omega, hval⟩
      intro i hi
      have : i = 0 := by omega
      subst this
      rw [hval]
    | inr hpos =>
      obtain ⟨hle, i0, hi0, heq⟩ := ih hpos (fun i hi => hbound i (by omega))
      have hstep : (accumulateColumn col (n + 1)).minx =
          if (col n).x < (accumulateColumn col n).minx then (col n).x
          else (accumulateColumn col n).minx := rfl
      constructor
      · intro i hi
        rw [hstep]
        split
        · next h =>
          rcases Nat.lt_or_ge i n with h2 | h2
          · exact le_trans (le_of_lt h) (hle i h2)
          · have : i = n := by omega
            subst this
            exact le_refl _
        · next h =>
          rcases Nat.lt_or_ge i n with h2 | h2
          · exact hle i h2
          · have : i = n := by omega
            subst this
            omega
      · rw [hstep]
        split
        · next h => exact ⟨n, by omega, rfl⟩
        · next h => exact ⟨i0, by omega, heq⟩

theorem accumulateColumn_maxx (col : Nat → FaEntry) :
    ∀ n, 1 ≤ n → (∀ i, i < n → INT32_MIN ≤ (col i).x) →
      (∀ i, i < n → (col i).x ≤ (accumulateColumn col n).maxx) ∧
      (∃ i, i < n ∧ (accumulateColumn col n).maxx = (col i).x) := by
  intro n
  induction n with
  | zero => omega
  | succ n ih =>
    intro _ hbound
    cases Nat.eq_zero_or_pos n with
    | inl h0 =>
      subst h0
      have hx0 := hbound 0 (by omega)
      have hval : (accumulateColumn col 1).maxx = (col 0).x := by
        simp only [accumulateColumn, accum_xy, initialise_accum]
        split
        · rfl
        · next h => omega
      refine ⟨?_, 0, by omega, hval⟩
      intro i hi
      have : i = 0 := by omega
      subst this
      rw [hval]
    | inr hpos =>
      obtain ⟨hle, i0, hi0, heq⟩ := ih hpos (fun i hi => hbound i (by omega))
      have hstep : (accumulateColumn col (n + 1)).maxx =
          if (accumulateColumn col n).maxx < (col n).x then (col n).x
          else (accumulateColumn col n).maxx := rfl
      constructor
      · intro i hi
        rw [hstep]
        split
        · next h =>
          rcases Nat.lt_or_ge i n with h2 | h2
          · exact le_trans (hle i h2) (le_of_lt h)
          · have : i = n := by omega
            subst this
            exact le_refl _
        · next h =>
          rcases Nat.lt_or_ge i n with h2 | h2
          · exact hle i h2
          · have : i = n := by omega
            subst this
            omega
      · rw [hstep]
        split
        · next h => exact ⟨n, by omega, rfl⟩
        · next h => exact ⟨i0, by omega, heq⟩

theorem accumulateColumn_miny (col : Nat → FaEntry) :
    ∀ n, 1 ≤ n → (∀ i, i < n → (col i).y ≤ INT32_MAX) →
      (∀ i, i < n → (accumulateColumn col n).miny ≤ (col i).y) ∧
      (∃ i, i < n ∧ (accumulateColumn col n).miny = (col i).y) := by
  intro n
  induction n with
  | zero => omega
  | succ n ih =>
    intro _ hbound
    cases Nat.eq_zero_or_pos n with
    | inl h0 =>
      subst h0
      have hx0 := hbound 0 (by omega)
      have hval : (accumulateColumn col 1).miny = (col 0).y := by
        simp only [accumulateColumn, accum_xy, initialise_accum]
        split
        · rfl
        · next h => omega
      refine ⟨?_, 0, by omega, hval⟩
      intro i hi
      have : i = 0 := by omega
      subst this
      rw [hval]
    | inr hpos =>
      obtain ⟨hle, i0, hi0, heq⟩ := ih hpos (fun i hi => hbound i (by omega))
      have hstep : (accumulateColumn col (n + 1)).miny =
          if (col n).y < (accumulateColumn col n).miny then (col n).y
          else (accumulateColumn col n).miny := rfl
      constructor
      · intro i hi
        rw [hstep]
        split
        · next h =>
          rcases Nat.lt_or_ge i n with h2 | h2
          · exact le_trans (le_of_lt h) (hle i h2)
          · have : i = n := by omega
            subst this
            exact le_refl _
        · next h =>
          rcases Nat.lt_or_ge i n with h2 | h2
          · exact hle i h2
          · have : i = n := by omega
            subst this
            omega
      · rw [hstep]
        split
        · next h => exact ⟨n, by omega, rfl⟩
        · next h => exact ⟨i0, by omega, heq⟩

theorem accumulateColumn_maxy (col : Nat → FaEntry) :
    ∀ n, 1 ≤ n → (∀ i, i < n → INT32_MIN ≤ (col i).y) →
      (∀ i, i < n → (col i).y ≤ (accumulateColumn col n).maxy) ∧
      (∃ i, i < n ∧ (accumulateColumn col n).maxy = (col i).y) := by
  intro n
  induction n with
  | zero => omega
  | succ n ih =>
    intro _ hbound
    cases Nat.eq_zero_or_pos n with
    | inl h0 =>
      subst h0
      have hx0 := hbound 0 (by omega)
      have hval : (accumulateColumn col 1).maxy = (col 0).y := by
        simp only [accumulateColumn, accum_xy, initialise_accum]
        split
        · rfl
        · next h => omega
      refine ⟨?_, 0, by omega, hval⟩
      intro i hi
      have : i = 0 := by omega
      subst this
      rw [hval]
    | inr hpos =>
      obtain ⟨hle, i0, hi0, heq⟩ := ih hpos (fun i hi => hbound i (by omega))
      have hstep : (accumulateColumn col (n + 1)).maxy =
          if (accumulateColumn col n).maxy < (col n).y then (col n).y
          else (accumulateColumn col n).maxy := rfl
      constructor
      · intro i hi
        rw [hstep]
        split
        · next h =>
          rcases Nat.lt_or_ge i n with h2 | h2
          · exact le_trans (hle i h2) (le_of_lt h)
          · have : i = n := by omega
            subst this
            exact le_refl _
        · next h =>
          rcases Nat.lt_or_ge i n with h2 | h2
          · exact hle i h2
          · have : i = n := by omega
            subst this
            omega
      · rw [hstep]
        split
        · next h => exact ⟨n, by omega, rfl⟩
        · next h => exact ⟨i0, by omega, heq⟩

theorem sum_int32_bounds (g : Nat → Int) (n : Nat)
    (hlo : ∀ i, i < n → INT32_MIN ≤ g i) (hhi : ∀ i, i < n → g i ≤ INT32_MAX) :
    -(2 ^ 31) * (n : Int) ≤ ∑ i ∈ Finset.range n, g i ∧
    (∑ i ∈ Finset.range n, g i) ≤ (2 ^ 31 - 1) * (n : Int) := by
  constructor
  · have h1 : ∑ _i ∈ Finset.range n, INT32_MIN ≤ ∑ i ∈ Finset.range n, g i :=
      Finset.sum_le_sum (fun i hi => hlo i (Finset.mem_range.1 hi))
    have h2 : ∑ _i ∈ Finset.range n, INT32_MIN = -(2 ^ 31) * (n : Int) := by
      rw [Finset.sum_const, Finset.card_range, nsmul_eq_mul]
      unfold INT32_MIN
      ring
    rw [← h2]
    exact h1
  · have h1 : ∑ i ∈ Finset.range n, g i ≤ ∑ _i ∈ Finset.range n, INT32_MAX :=
      Finset.sum_le_sum (fun i hi => hhi i (Finset.mem_range.1 hi))
    have h2 : ∑ _i ∈ Finset.range n, INT32_MAX = (2 ^ 31 - 1) * (n : Int) := by
      rw [Finset.sum_const, Finset.card_range, nsmul_eq_mul]
      unfold INT32_MAX
      ring
    rw [h2] at h1
    exact h1

theorem sq_sum_toNat_cast (g : Nat → Int) (n : Nat) :
    ((∑ i ∈ Finset.range n, (g i * g i).toNat : ℕ) : ℝ) =
      ∑ i ∈ Finset.range n, ((g i : ℝ)) ^ 2 := by
  rw [Nat.cast_sum]
  refine Finset.sum_congr rfl ?_
  intro i _
  have h : ((g i * g i).toNat : ℤ) = g i * g i := Int.toNat_of_nonneg (mul_self_nonneg _)
  have h2 : (((g i * g i).toNat : ℕ) : ℝ) = ((g i * g i : ℤ) : ℝ) := by
    exact_mod_cast congrArg (fun z : ℤ => (z : ℝ)) h
  rw [h2]
  push_cast
  ring

theorem variance_nonneg (g : Nat → Int) (n : Nat) (hn : 0 < n) :
    0 ≤ (∑ i ∈ Finset.range n, ((g i : ℝ)) ^ 2) / (n : ℝ) -
      ((∑ i ∈ Finset.range n, ((g i : ℝ))) / (n : ℝ)) ^ 2 := by
  have hnR : (0:ℝ) < (n:ℝ) := by exact_mod_cast hn
  have key : (∑ i ∈ Finset.range n, ((g i : ℝ))) ^ 2 ≤
      (((Finset.range n).card : ℕ) : ℝ) * ∑ i ∈ Finset.range n, ((g i : ℝ)) ^ 2 :=
    sq_sum_le_card_mul_sum_sq
  rw [Finset.card_range] at key
  rw [sub_nonneg, div_pow, div_le_div_iff₀ (by positivity) hnR]
  calc (∑ i ∈ Finset.range n, ((g i : ℝ))) ^ 2 * (n:ℝ)
      ≤ ((n:ℝ) * ∑ i ∈ Finset.range n, ((g i : ℝ)) ^ 2) * (n:ℝ) :=
        mul_le_mul_of_nonneg_right key hnR.le
    _ = (∑ i ∈ Finset.range n, ((g i : ℝ)) ^ 2) * ((n:ℝ)) ^ 2 := by ring

/-- C2: for a group of `2 ^ s` int32 samples, `decimate_column_one`
records exact minima and maxima, a mean within 1 of the true mean, and a
standard deviation within 1 of the rounded true standard deviation. -/
theorem decimate_column_one_stats
    (col : Nat → FaEntry) (dacc : FaAccum) (s : Nat)
    (hb : ∀ i, i < 2 ^ s →
      (INT32_MIN ≤ (col i).x ∧ (col i).x ≤ INT32_MAX) ∧
      (INT32_MIN ≤ (col i).y ∧ (col i).y ≤ INT32_MAX)) :
    ((∀ i, i < 2 ^ s → ((decimate_column_one col dacc s).1).min.x ≤ (col i).x) ∧
     (∃ i, i < 2 ^ s ∧ ((decimate_column_one col dacc s).1).min.x = (col i).x)) ∧
    ((∀ i, i < 2 ^ s → (col i).x ≤ ((decimate_column_one col dacc s).1).max.x) ∧
     (∃ i, i < 2 ^ s ∧ ((decimate_column_one col dacc s).1).max.x = (col i).x)) ∧
    ((∀ i, i < 2 ^ s → ((decimate_column_one col dacc s).1).min.y ≤ (col i).y) ∧
     (∃ i, i < 2 ^ s ∧ ((decimate_column_one col dacc s).1).min.y = (col i).y)) ∧
    ((∀ i, i < 2 ^ s → (col i).y ≤ ((decimate_column_one col dacc s).1).max.y) ∧
     (∃ i, i < 2 ^ s ∧ ((decimate_column_one col dacc s).1).max.y = (col i).y)) ∧
    |((((decimate_column_one col dacc s).1).mean.x : Int) : ℝ) -
      (∑ i ∈ Finset.range (2 ^ s), ((col i).x : ℝ)) / (2 ^ s : ℝ)| ≤ 1 ∧
    |((((decimate_column_one col dacc s).1).mean.y : Int) : ℝ) -
      (∑ i ∈ Finset.range (2 ^ s), ((col i).y : ℝ)) / (2 ^ s : ℝ)| ≤ 1 ∧
    |((((decimate_column_one col dacc s).1).std.x : Int) : ℝ) -
      ((round (Real.sqrt ((∑ i ∈ Finset.range (2 ^ s), ((col i).x : ℝ) ^ 2) / (2 ^ s : ℝ) -
        ((∑ i ∈ Finset.range (2 ^ s), ((col i).x : ℝ)) / (2 ^ s : ℝ)) ^ 2)) : Int) : ℝ)| ≤ 1 ∧
    |((((decimate_column_one col dacc s).1).std.y : Int) : ℝ) -
      ((round (Real.sqrt ((∑ i ∈ Finset.range (2 ^ s), ((col i).y : ℝ) ^ 2) / (2 ^ s : ℝ) -
        ((∑ i ∈ Finset.range (2 ^ s), ((col i).y : ℝ)) / (2 ^ s : ℝ)) ^ 2)) : Int) : ℝ)| ≤ 1 := by
  have hshift : (1 <<< s : ℕ) = 2 ^ s := Nat.one_shiftLeft s
  have hA : (decimate_column_one col dacc s).1 =
      compute_result (accumulateColumn col (2 ^ s)) s := by
    simp only [decimate_column_one, hshift]
  rw [hA]
  set A := accumulateColumn col (2 ^ s) with hAdef
  have hn1 : 1 ≤ 2 ^ s := Nat.one_le_two_pow
  have hnpos : 0 < 2 ^ s := hn1
  have hbx1 : ∀ i, i < 2 ^ s → INT32_MIN ≤ (col i).x := fun i hi => ((hb i hi).1).1
  have hbx2 : ∀ i, i < 2 ^ s → (col i).x ≤ INT32_MAX := fun i hi => ((hb i hi).1).2
  have hby1 : ∀ i, i < 2 ^ s → INT32_MIN ≤ (col i).y := fun i hi => ((hb i hi).2).1
  have hby2 : ∀ i, i < 2 ^ s → (col i).y ≤ INT32_MAX := fun i hi => ((hb i hi).2).2
  have hminx : (compute_result A s).min.x = A.minx := rfl
  have hmaxx : (compute_result A s).max.x = A.maxx := rfl
  have hminy : (compute_result A s).min.y = A.miny := rfl
  have hmaxy : (compute_result A s).max.y = A.maxy := rfl
  have hmeanx : (compute_result A s).mean.x = i32ofInt (asr A.sumx s) := rfl
  have hmeany : (compute_result A s).mean.y = i32ofInt (asr A.sumy s) := rfl
  have hstdx : (compute_result A s).std.x = compute_std A.sum_sq_x A.sumx s := rfl
  have hstdy : (compute_result A s).std.y = compute_std A.sum_sq_y A.sumy s := rfl
  have hsumx := accumulateColumn_sumx col (2 ^ s)
  have hsumy := accumulateColumn_sumy col (2 ^ s)
  have hsqx := accumulateColumn_sum_sq_x col (2 ^ s)
  have hsqy := accumulateColumn_sum_sq_y col (2 ^ s)
  have hcastp : ((2 ^ s : ℕ) : ℤ) = (2 : ℤ) ^ s := by push_cast; ring
  have hboundsx := sum_int32_bounds (fun i => (col i).x) (2 ^ s) hbx1 hbx2
  have hboundsy := sum_int32_bounds (fun i => (col i).y) (2 ^ s) hby1 hby2
  have hsumxlo : -(2 ^ 31) * 2 ^ s ≤ A.sumx := by
    rw [hsumx]
    rw [← hcastp]
    exact hboundsx.1
  have hsumxhi : A.sumx ≤ (2 ^ 31 - 1) * 2 ^ s := by
    rw [hsumx]
    rw [← hcastp]
    exact hboundsx.2
  have hsumylo : -(2 ^ 31) * 2 ^ s ≤ A.sumy := by
    rw [hsumy]
    rw [← hcastp]
    exact hboundsy.1
  have hsumyhi : A.sumy ≤ (2 ^ 31 - 1) * 2 ^ s := by
    rw [hsumy]
    rw [← hcastp]
    exact hboundsy.2
  have hcastnR : ((2 ^ s : ℕ) : ℝ) = (2 : ℝ) ^ s := by push_cast; ring
  have hsumxR : ((A.sumx : Int) : ℝ) = ∑ i ∈ Finset.range (2 ^ s), ((col i).x : ℝ) := by
    rw [hsumx]
    push_cast
    rfl
  have hsumyR : ((A.sumy : Int) : ℝ) = ∑ i ∈ Finset.range (2 ^ s), ((col i).y : ℝ) := by
    rw [hsumy]
    push_cast
    rfl
  have hsqxR : ((A.sum_sq_x : ℕ) : ℝ) = ∑ i ∈ Finset.range (2 ^ s), ((col i).x : ℝ) ^ 2 := by
    rw [hsqx]
    exact sq_sum_toNat_cast (fun i => (col i).x) (2 ^ s)
  have hsqyR : ((A.sum_sq_y : ℕ) : ℝ) = ∑ i ∈ Finset.range (2 ^ s), ((col i).y : ℝ) ^ 2 := by
    rw [hsqy]
    exact sq_sum_toNat_cast (fun i => (col i).y) (2 ^ s)
  have hvarx : 0 ≤ ((A.sum_sq_x : ℕ) : ℝ) / (2 ^ s : ℝ) - (((A.sumx : Int) : ℝ) / (2 ^ s : ℝ)) ^ 2 := by
    rw [hsqxR, hsumxR, ← hcastnR]
    exact variance_nonneg (fun i => (col i).x) (2 ^ s) hnpos
  have hvary : 0 ≤ ((A.sum_sq_y : ℕ) : ℝ) / (2 ^ s : ℝ) - (((A.sumy : Int) : ℝ) / (2 ^ s : ℝ)) ^ 2 := by
    rw [hsqyR, hsumyR, ← hcastnR]
    exact variance_nonneg (fun i => (col i).y) (2 ^ s) hnpos
  refine ⟨?_, ?_, ?_, ?_, ?_, ?_, ?_, ?_⟩
  · rw [hminx]
    exact accumulateColumn_minx col (2 ^ s) hn1 hbx2
  · rw [hmaxx]
    exact accumulateColumn_maxx col (2 ^ s) hn1 hbx1
  · rw [hminy]
    exact accumulateColumn_miny col (2 ^ s) hn1 hby2
  · rw [hmaxy]
    exact accumulateColumn_maxy col (2 ^ s) hn1 hby1
  · rw [hmeanx]
    obtain ⟨hwrap, hclose⟩ := asr_spec A.sumx s hsumxlo hsumxhi
    rw [hwrap]
    rw [hsumxR] at hclose
    exact hclose
  · rw [hmeany]
    obtain ⟨hwrap, hclose⟩ := asr_spec A.sumy s hsumylo hsumyhi
    rw [hwrap]
    rw [hsumyR] at hclose
    exact hclose
  · rw [hstdx]
    have h := compute_std_close A.sum_sq_x A.sumx s hvarx
    rw [hsqxR, hsumxR] at h
    exact h
  · rw [hstdy]
    have h := compute_std_close A.sum_sq_y A.sumy s hvary
    rw [hsqyR, hsumyR] at h
    exact h

theorem decimate_column_one_stats_witness :
    ((∀ i, i < 2 ^ 1 → ((decimate_column_one zeroCol initialise_accum 1).1).min.x ≤ (zeroCol i).x) ∧
     (∃ i, i < 2 ^ 1 ∧ ((decimate_column_one zeroCol initialise_accum 1).1).min.x = (zeroCol i).x)) ∧
    ((∀ i, i < 2 ^ 1 → (zeroCol i).x ≤ ((decimate_column_one zeroCol initialise_accum 1).1).max.x) ∧
     (∃ i, i < 2 ^ 1 ∧ ((decimate_column_one zeroCol initialise_accum 1).1).max.x = (zeroCol i).x)) ∧
    ((∀ i, i < 2 ^ 1 → ((decimate_column_one zeroCol initialise_accum 1).1).min.y ≤ (zeroCol i).y) ∧
     (∃ i, i < 2 ^ 1 ∧ ((decimate_column_one zeroCol initialise_accum 1).1).min.y = (zeroCol i).y)) ∧
    ((∀ i, i < 2 ^ 1 → (zeroCol i).y ≤ ((decimate_column_one zeroCol initialise_accum 1).1).max.y) ∧
     (∃ i, i < 2 ^ 1 ∧ ((decimate_column_one zeroCol initialise_accum 1).1).max.y = (zeroCol i).y)) ∧
    |((((decimate_column_one zeroCol initialise_accum 1).1).mean.x : Int) : ℝ) -
      (∑ i ∈ Finset.range (2 ^ 1), ((zeroCol i).x : ℝ)) / (2 ^ 1 : ℝ)| ≤ 1 ∧
    |((((decimate_column_one zeroCol initialise_accum 1).1).mean.y : Int) : ℝ) -
      (∑ i ∈ Finset.range (2 ^ 1), ((zeroCol i).y : ℝ)) / (2 ^ 1 : ℝ)| ≤ 1 ∧
    |((((decimate_column_one zeroCol initialise_accum 1).1).std.x : Int) : ℝ) -
      ((round (Real.sqrt ((∑ i ∈ Finset.range (2 ^ 1), ((zeroCol i).x : ℝ) ^ 2) / (2 ^ 1 : ℝ) -
        ((∑ i ∈ Finset.range (2 ^ 1), ((zeroCol i).x : ℝ)) / (2 ^ 1 : ℝ)) ^ 2)) : Int) : ℝ)| ≤ 1 ∧
    |((((decimate_column_one zeroCol initialise_accum 1).1).std.y : Int) : ℝ) -
      ((round (Real.sqrt ((∑ i ∈ Finset.range (2 ^ 1), ((zeroCol i).y : ℝ) ^ 2) / (2 ^ 1 : ℝ) -
        ((∑ i ∈ Finset.range (2 ^ 1), ((zeroCol i).y : ℝ)) / (2 ^ 1 : ℝ)) ^ 2)) : Int) : ℝ)| ≤ 1 :=
  decimate_column_one_stats zeroCol initialise_accum 1 (by decide)

theorem two_mul_sum_range (k : Nat) :
    (2:ℤ) * ∑ i ∈ Finset.range k, (i : ℤ) = k * (k - 1) := by
  induction k with
  | zero => simp
  | succ k ih =>
    rw [Finset.sum_range_succ]
    push_cast
    push_cast at ih
    linear_combination ih

theorem six_mul_sum_range_sq (k : Nat) :
    (6:ℤ) * ∑ i ∈ Finset.range k, (i : ℤ) ^ 2 = k * (k - 1) * (2 * k - 1) := by
  induction k with
  | zero => simp
  | succ k ih =>
    rw [Finset.sum_range_succ]
    push_cast
    push_cast at ih
    linear_combination ih

theorem three_dvd_consecutive (m : ℤ) : (3:ℤ) ∣ m * (m + 1) * (m + 2) := by
  have h : m % 3 = 0 ∨ m % 3 = 1 ∨ m % 3 = 2 := by omega
  obtain ⟨q, hq⟩ : ∃ q, m = 3 * q + m % 3 := ⟨m / 3, by omega⟩
  rcases h with h | h | h
  · exact ⟨q * (3 * q + 1) * (3 * q + 2), by rw [hq, h]; ring⟩
  · exact ⟨(3 * q + 1) * (3 * q + 2) * (q + 1), by rw [hq, h]; ring⟩
  · exact ⟨(3 * q + 2) * (q + 1) * (3 * q + 4), by rw [hq, h]; ring⟩

theorem advance_index_sum_t2_mul_three (k : Nat) (hk : 1 ≤ k) :
    ((advance_index_sum_t2 k : ℕ) : ℤ) * 3 = ((k:ℤ) * k - 1) * k := by
  have hksq : 1 ≤ k * k := Nat.one_le_iff_ne_zero.2 (by positivity)
  have hdvdZ : (3:ℤ) ∣ ((k:ℤ) * k - 1) * k := by
    have h := three_dvd_consecutive ((k:ℤ) - 1)
    have e : ((k:ℤ) - 1) * (((k:ℤ) - 1) + 1) * (((k:ℤ) - 1) + 2) =
        ((k:ℤ) * k - 1) * k := by ring
    rwa [e] at h
  have hcast : (((k * k - 1) * k : ℕ) : ℤ) = ((k:ℤ) * k - 1) * k := by
    push_cast [Nat.cast_sub hksq]
    ring
  have hdvdN : 3 ∣ (k * k - 1) * k := by
    have := hdvdZ
    rw [← hcast] at this
    exact_mod_cast this
  unfold advance_index_sum_t2
  rw [← hcast]
  exact_mod_cast Nat.div_mul_cancel hdvdN

/-- C3 counterexample: for the strictly increasing but unequally spaced
minor-block timestamps 0, 1, 999999, 1000000 the fitted duration is
1599999, while `(t_k - t_1)·k/(k-1) = 4000000/3 ≈ 1333333.3`: the fit
disagrees with the endpoint formula by more than 260000 microseconds. -/
theorem advance_index_duration_counterexample :
    (∀ i, i < 3 → c3Array i < c3Array (i + 1)) ∧
    advance_index_duration c3Array 4 = 1599999 ∧
    ¬ |((advance_index_duration c3Array 4 : ℕ) : ℝ) -
        ((c3Array 3 : ℝ) - (c3Array 0 : ℝ)) * 4 / (4 - 1)| ≤ 1 := by
  refine ⟨by decide, by decide, ?_⟩
  intro h
  rw [show advance_index_duration c3Array 4 = 1599999 from by decide] at h
  have e3 : ((c3Array 3 : ℤ) : ℝ) = 1000000 := by norm_num [c3Array]
  have e0 : ((c3Array 0 : ℤ) : ℝ) = 0 := by norm_num [c3Array]
  rw [e3, e0, abs_le] at h
  have h2 := h.2
  norm_num at h2

/-- C3 (amended): for equally spaced minor-block timestamps
`x_i = i * d` the fitted duration equals `k * d` exactly, hence is within
1 microsecond of `(t_k - t_1) * k / (k - 1)`.  (The size bounds keep all
the C intermediate values inside their 64-bit types.) -/
theorem advance_index_duration_equally_spaced (d : Int) (k : Nat)
    (hk2 : 2 ≤ k) (hkmax : k ≤ 1024) (hd0 : 0 ≤ d) (hdmax : d ≤ 2 ^ 20) :
    ((advance_index_duration (fun i => (i : Int) * d) k : ℕ) : Int) = (k : Int) * d ∧
    |((advance_index_duration (fun i => (i : Int) * d) k : ℕ) : ℝ) -
      (((k : ℝ) - 1) * (d : ℝ)) * (k : ℝ) / ((k : ℝ) - 1)| ≤ 1 := by
  have hA := two_mul_sum_range k
  have hB := six_mul_sum_range_sq k
  have hs2 := advance_index_sum_t2_mul_three k (by omega)
  have hxt : advance_index_sum_xt (fun i => (i : Int) * d) k =
      d * (2 * (∑ i ∈ Finset.range k, (i : ℤ) ^ 2) -
        ((k:ℤ) - 1) * ∑ i ∈ Finset.range k, (i : ℤ)) := by
    unfold advance_index_sum_xt
    calc ∑ i ∈ Finset.range k, ((i : Int) * d) * (2 * (i : Int) - (k : Int) + 1)
        = ∑ i ∈ Finset.range k, d * (2 * (i:ℤ) ^ 2 - ((k:ℤ) - 1) * (i:ℤ)) :=
          Finset.sum_congr rfl (fun i _ => by ring)
      _ = d * ∑ i ∈ Finset.range k, (2 * (i:ℤ) ^ 2 - ((k:ℤ) - 1) * (i:ℤ)) :=
          (Finset.mul_sum _ _ _).symm
      _ = d * (2 * (∑ i ∈ Finset.range k, (i : ℤ) ^ 2) -
          ((k:ℤ) - 1) * ∑ i ∈ Finset.range k, (i : ℤ)) := by
          rw [Finset.sum_sub_distrib, ← Finset.mul_sum, ← Finset.mul_sum]
  have h3 : (3:ℤ) * (2 * (k:ℤ) * advance_index_sum_xt (fun i => (i : Int) * d) k) =
      3 * ((k:ℤ) * d * ((advance_index_sum_t2 k : ℕ) : ℤ)) := by
    rw [hxt]
    linear_combination (2 * (k:ℤ) * d) * hB - (3 * (k:ℤ) * d * ((k:ℤ) - 1)) * hA -
      ((k:ℤ) * d) * hs2
  have hnum : 2 * (k:ℤ) * advance_index_sum_xt (fun i => (i : Int) * d) k =
      (k:ℤ) * d * ((advance_index_sum_t2 k : ℕ) : ℤ) :=
    mul_left_cancel₀ (by norm_num : (3:ℤ) ≠ 0) h3
  -- size bounds
  have hs2b : advance_index_sum_t2 k ≤ 357913941 := by
    have h1 : k * k ≤ 1024 * 1024 := Nat.mul_le_mul hkmax hkmax
    have h2 : (k * k - 1) * k ≤ 1024 * 1024 * 1024 :=
      Nat.mul_le_mul (by omega) hkmax
    calc advance_index_sum_t2 k = (k * k - 1) * k / 3 := rfl
      _ ≤ 1024 * 1024 * 1024 / 3 := Nat.div_le_div_right h2
      _ = 357913941 := by norm_num
  have hs2pos : 0 < advance_index_sum_t2 k := by
    have h4 : 4 ≤ k * k := by
      calc 4 = 2 * 2 := rfl
        _ ≤ k * k := Nat.mul_le_mul hk2 hk2
    have h6 : 6 ≤ (k * k - 1) * k := by
      calc 6 = 3 * 2 := rfl
        _ ≤ (k * k - 1) * k := Nat.mul_le_mul (by omega) hk2
    have h1 : 1 ≤ (k * k - 1) * k / 3 := (Nat.le_div_iff_mul_le (by norm_num)).2 (by omega)
    exact lt_of_lt_of_le (by norm_num) h1
  have hDnn : 0 ≤ (k:ℤ) * d := mul_nonneg (by positivity) hd0
  have hDb : (k:ℤ) * d ≤ 1024 * 2 ^ 20 := by
    have hkZ : (k:ℤ) ≤ 1024 := by exact_mod_cast hkmax
    calc (k:ℤ) * d ≤ 1024 * d := mul_le_mul_of_nonneg_right hkZ hd0
      _ ≤ 1024 * 2 ^ 20 := mul_le_mul_of_nonneg_left hdmax (by norm_num)
  have hs2Z : ((advance_index_sum_t2 k : ℕ) : ℤ) ≤ 357913941 := by exact_mod_cast hs2b
  have hs2Znn : (0:ℤ) ≤ ((advance_index_sum_t2 k : ℕ) : ℤ) := by positivity
  have hvnn : 0 ≤ (k:ℤ) * d * ((advance_index_sum_t2 k : ℕ) : ℤ) :=
    mul_nonneg hDnn hs2Znn
  have hvb : (k:ℤ) * d * ((advance_index_sum_t2 k : ℕ) : ℤ) < (U64 : ℤ) := by
    have h1 : (k:ℤ) * d * ((advance_index_sum_t2 k : ℕ) : ℤ) ≤
        1024 * 2 ^ 20 * 357913941 := mul_le_mul hDb hs2Z hs2Znn (by norm_num)
    rw [show (U64 : ℤ) = 18446744073709551616 from by norm_num [U64]]
    omega
  -- evaluate the duration
  have hD' : (((k:ℤ) * d).toNat : ℤ) = (k:ℤ) * d := Int.toNat_of_nonneg hDnn
  have hu : u64ofInt (2 * (k:ℤ) * advance_index_sum_xt (fun i => (i : Int) * d) k) =
      ((k:ℤ) * d).toNat * advance_index_sum_t2 k := by
    unfold u64ofInt
    rw [hnum]
    have hveq : (k:ℤ) * d * ((advance_index_sum_t2 k : ℕ) : ℤ) =
        ((((k:ℤ) * d).toNat * advance_index_sum_t2 k : ℕ) : ℤ) := by
      push_cast
      rw [hD']
    rw [hveq, Int.emod_eq_of_lt (by positivity) (by rw [← hveq]; exact hvb)]
    exact Int.toNat_natCast _
  have hdur : advance_index_duration (fun i => (i : Int) * d) k = ((k:ℤ) * d).toNat := by
    unfold advance_index_duration
    rw [hu, Nat.mul_div_cancel _ hs2pos]
    refine Nat.mod_eq_of_lt ?_
    have : (((k:ℤ) * d).toNat : ℤ) < (U32 : ℤ) := by
      rw [hD', show (U32 : ℤ) = 4294967296 from by norm_num [U32]]
      omega
    exact_mod_cast this
  constructor
  · rw [hdur, hD']
  · rw [hdur]
    have hcastR : ((((k:ℤ) * d).toNat : ℕ) : ℝ) = (k : ℝ) * (d : ℝ) := by
      have : ((((k:ℤ) * d).toNat : ℕ) : ℤ) = (k:ℤ) * d := hD'
      have h2 : ((((k:ℤ) * d).toNat : ℕ) : ℝ) = (((k:ℤ) * d : ℤ) : ℝ) := by
        exact_mod_cast congrArg (fun z : ℤ => (z : ℝ)) this
      rw [h2]
      push_cast
      ring
    rw [hcastR]
    have hk1 : (k : ℝ) - 1 ≠ 0 := by
      have h2 : (2:ℝ) ≤ (k:ℝ) := by exact_mod_cast hk2
      intro hc
      have hk1e : (k:ℝ) = 1 := by linarith
      linarith
    have hrhs : (((k : ℝ) - 1) * (d : ℝ)) * (k : ℝ) / ((k : ℝ) - 1) = (k : ℝ) * (d : ℝ) := by
      field_simp
      ring
    rw [hrhs, sub_self, abs_zero]
    norm_num

theorem advance_index_duration_equally_spaced_witness :
    ((advance_index_duration (fun i => (i : Int) * 5) 2 : ℕ) : Int) = ((2:ℕ) : Int) * 5 ∧
    |((advance_index_duration (fun i => (i : Int) * 5) 2 : ℕ) : ℝ) -
      ((((2:ℕ) : ℝ) - 1) * ((5 : ℤ) : ℝ)) * ((2:ℕ) : ℝ) / (((2:ℕ) : ℝ) - 1)| ≤ 1 :=
  advance_index_duration_equally_spaced 5 2 (by norm_num) (by norm_num)
    (by norm_num) (by norm_num)

theorem digitChar10_isDigit : ∀ d, d < 10 → isDigitChar (digitChar10 d) = true := by decide

theorem digitChar10_toNat : ∀ d, d < 10 → (digitChar10 d).toNat - 48 = d := by decide

theorem natToCharsAux_fuel : ∀ f1 : Nat, ∀ n f2, n < f1 → n < f2 →
    natToCharsAux f1 n = natToCharsAux f2 n := by
  intro f1
  induction f1 with
  | zero => omega
  | succ f1 ih =>
    intro n f2 h1 h2
    cases f2 with
    | zero => omega
    | succ f2 =>
      show natToCharsAux (f1 + 1) n = natToCharsAux (f2 + 1) n
      by_cases h10 : n < 10
      · simp [natToCharsAux, h10]
      · have hrec : n / 10 < n := Nat.div_lt_self (by omega) (by omega)
        simp only [natToCharsAux, if_neg h10]
        rw [ih (n / 10) f2 (by omega) (by omega)]

theorem natToChars_step {n : Nat} (h : 10 ≤ n) :
    natToChars n = natToChars (n / 10) ++ [digitChar10 (n % 10)] := by
  show natToCharsAux (n + 1) n = _
  simp only [natToCharsAux, if_neg (by omega : ¬ n < 10)]
  rw [natToCharsAux_fuel n (n / 10) (n / 10 + 1)
    (Nat.div_lt_self (by omega) (by omega)) (by omega)]
  rfl

theorem natToChars_small {n : Nat} (h : n < 10) : natToChars n = [digitChar10 n] := by
  show natToCharsAux (n + 1) n = _
  simp [natToCharsAux, h]

theorem natToChars_ne_nil (n : Nat) : natToChars n ≠ [] := by
  by_cases h : n < 10
  · rw [natToChars_small h]
    simp
  · rw [natToChars_step (by omega)]
    simp

theorem natToChars_all_digits (n : Nat) :
    ∀ c ∈ natToChars n, isDigitChar c = true := by
  induction n using Nat.strong_induction_on with
  | _ n ih =>
    by_cases h : n < 10
    · rw [natToChars_small h]
      intro c hc
      rw [List.mem_singleton] at hc
      subst hc
      exact digitChar10_isDigit n h
    · rw [natToChars_step (by omega)]
      intro c hc
      rw [List.mem_append] at hc
      rcases hc with hc | hc
      · exact ih (n / 10) (Nat.div_lt_self (by omega) (by omega)) c hc
      · rw [List.mem_singleton] at hc
        subst hc
        exact digitChar10_isDigit _ (Nat.mod_lt _ (by omega))

theorem parse_uint_digits_natToChars (n : Nat) :
    ∀ acc rest, parse_uint_digits (natToChars n ++ rest) acc =
      parse_uint_digits rest (acc * 10 ^ (natToChars n).length + n) := by
  induction n using Nat.strong_induction_on with
  | _ n ih =>
    intro acc rest
    by_cases h : n < 10
    · rw [natToChars_small h]
      show parse_uint_digits (digitChar10 n :: rest) acc = _
      simp only [parse_uint_digits, digitChar10_isDigit n h, if_pos]
      rw [digitChar10_toNat n h]
      have : acc * 10 ^ ([digitChar10 n].length) + n = 10 * acc + n := by
        simp
        ring
      rw [this]
    · rw [natToChars_step (by omega), List.append_assoc]
      rw [ih (n / 10) (Nat.div_lt_self (by omega) (by omega)) acc
        ([digitChar10 (n % 10)] ++ rest)]
      show parse_uint_digits (digitChar10 (n % 10) :: rest) _ = _
      simp only [parse_uint_digits,
        digitChar10_isDigit _ (Nat.mod_lt _ (by omega : 0 < 10)), if_pos]
      rw [digitChar10_toNat _ (Nat.mod_lt _ (by omega : 0 < 10))]
      congr 1
      rw [List.length_append, List.length_singleton, pow_succ, ← Nat.mul_assoc]
      generalize acc * 10 ^ (natToChars (n / 10)).length = Q
      omega

theorem parse_uint_digits_stop (n : Nat) (rest : List Char) (hrest : headNotDigit rest) :
    parse_uint_digits rest n = (n, rest) := by
  cases rest with
  | nil => rfl
  | cons c r =>
    have hc : isDigitChar c = false := hrest
    simp [parse_uint_digits, hc]

theorem parse_uint_append (n : Nat) (rest : List Char) (hrest : headNotDigit rest) :
    parse_uint (natToChars n ++ rest) = some (n, rest) := by
  obtain ⟨c, r, hcr⟩ : ∃ c r, natToChars n = c :: r := by
    cases h : natToChars n with
    | nil => exact absurd h (natToChars_ne_nil n)
    | cons c r => exact ⟨c, r, rfl⟩
  have hdig : isDigitChar c = true := by
    refine natToChars_all_digits n c ?_
    rw [hcr]
    exact List.mem_cons_self _ _
  have h1 : natToChars n ++ rest = c :: (r ++ rest) := by rw [hcr]; rfl
  rw [h1]
  show (if isDigitChar c then some (parse_uint_digits (c :: (r ++ rest)) 0) else none) = _
  rw [if_pos hdig, ← h1, parse_uint_digits_natToChars n 0 rest,
    parse_uint_digits_stop _ _ hrest]
  simp

theorem test_set_mask_bit (m i t : Nat) :
    test_mask_bit (set_mask_bit m i) t = (test_mask_bit m t || decide (t = i)) := by
  unfold test_mask_bit set_mask_bit
  rw [Nat.testBit_lor]
  congr 1
  rw [Nat.one_shiftLeft, Nat.testBit_two_pow]
  rcases eq_or_ne i t with h | h
  · subst h
    simp
  · simp [h, Ne.symm h]

theorem test_set_mask_range (t : Nat) :
    ∀ c m a, test_mask_bit (set_mask_range m a c) t =
      (test_mask_bit m t || decide (a ≤ t ∧ t < a + c)) := by
  intro c
  induction c with
  | zero =>
    intro m a
    simp [set_mask_range]
  | succ c ih =>
    intro m a
    show test_mask_bit (set_mask_range (set_mask_bit m a) (a + 1) c) t = _
    rw [ih, test_set_mask_bit]
    cases htm : test_mask_bit m t
    · simp only [Bool.false_or]
      rw [← Bool.decide_or]
      refine decide_eq_decide.2 ?_
      omega
    · simp

theorem test_bitsOfRanges (t : Nat) :
    ∀ rs m0, (∀ r ∈ rs, r.1 ≤ r.2) →
      (test_mask_bit (bitsOfRanges m0 rs) t = true ↔
        (test_mask_bit m0 t = true ∨ ∃ r ∈ rs, r.1 ≤ t ∧ t ≤ r.2)) := by
  intro rs
  induction rs with
  | nil => simp [bitsOfRanges]
  | cons r rest ih =>
    intro m0 hwf
    have hr1 : r.1 ≤ r.2 := hwf r (List.mem_cons_self _ _)
    show test_mask_bit (bitsOfRanges (set_mask_range m0 r.1 (r.2 + 1 - r.1)) rest) t = true ↔ _
    rw [ih _ (fun r2 hr2 => hwf r2 (List.mem_cons_of_mem _ hr2)), test_set_mask_range]
    simp only [Bool.or_eq_true, decide_eq_true_eq, List.mem_cons]
    constructor
    · rintro ((hm | hint) | ⟨r2, hr2, hint2⟩)
      · exact Or.inl hm
      · exact Or.inr ⟨r, Or.inl rfl, by omega⟩
      · exact Or.inr ⟨r2, Or.inr hr2, hint2⟩
    · rintro (hm | ⟨r2, hr2 | hr2, hint2⟩)
      · exact Or.inl (Or.inl hm)
      · subst hr2
        exact Or.inl (Or.inr (by omega))
      · exact Or.inr ⟨r2, hr2, hint2⟩

theorem mask_testBit_high {m N t : Nat} (hm : m < 2 ^ N) (ht : N ≤ t) :
    m.testBit t = false :=
  Nat.testBit_lt_two_pow (lt_of_lt_of_le hm (Nat.pow_le_pow_right (by norm_num) ht))

theorem rangesAux_mem (m t : Nat) :
    ∀ cnt id inr s,
      (inr = true → s < id ∧ ∀ u, s ≤ u → u < id → test_mask_bit m u = true) →
      ((∃ r ∈ rangesAux m id cnt inr s, r.1 ≤ t ∧ t ≤ r.2) ↔
        ((inr = true ∧ s ≤ t ∧ t < id) ∨
         (id ≤ t ∧ t < id + cnt ∧ test_mask_bit m t = true))) := by
  intro cnt
  induction cnt with
  | zero =>
    intro id inr s hinv
    cases inr with
    | false =>
      have hstep : rangesAux m id 0 false s = [] := by simp [rangesAux]
      rw [hstep]
      constructor
      · rintro ⟨r, hr, _⟩
        simp at hr
      · rintro (⟨h, _⟩ | ⟨h1, h2, _⟩)
        · exact absurd h (by simp)
        · omega
    | true =>
      obtain ⟨hs, _⟩ := hinv rfl
      have hstep : rangesAux m id 0 true s = [(s, id - 1)] := by simp [rangesAux]
      rw [hstep]
      constructor
      · rintro ⟨r, hr, h1, h2⟩
        rcases List.mem_singleton.1 hr with rfl
        exact Or.inl ⟨rfl, h1, by omega⟩
      · rintro (⟨_, h1, h2⟩ | ⟨h1, h2, _⟩)
        · exact ⟨(s, id - 1), List.mem_singleton_self _, h1, by omega⟩
        · omega
  | succ cnt ih =>
    intro id inr s hinv
    cases hbit : test_mask_bit m id
    case true =>
      cases inr with
      | false =>
        have hstep : rangesAux m id (cnt + 1) false s =
            rangesAux m (id + 1) cnt true id := by
          simp [rangesAux, hbit]
        have hinv2 : true = true →
            id < id + 1 ∧ ∀ u, id ≤ u → u < id + 1 → test_mask_bit m u = true := by
          intro _
          refine ⟨by omega, fun u hu1 hu2 => ?_⟩
          have : u = id := by omega
          subst this
          exact hbit
        rw [hstep, ih (id + 1) true id hinv2]
        constructor
        · rintro (⟨_, h1, h2⟩ | ⟨h1, h2, h3⟩)
          · have : t = id := by omega
            subst this
            exact Or.inr ⟨le_refl _, by omega, hbit⟩
          · exact Or.inr ⟨by omega, by omega, h3⟩
        · rintro (⟨h, _⟩ | ⟨h1, h2, h3⟩)
          · exact absurd h (by simp)
          · rcases Nat.eq_or_lt_of_le h1 with h | h
            · exact Or.inl ⟨rfl, by omega, by omega⟩
            · exact Or.inr ⟨by omega, by omega, h3⟩
      | true =>
        obtain ⟨hs, hall⟩ := hinv rfl
        have hstep : rangesAux m id (cnt + 1) true s =
            rangesAux m (id + 1) cnt true s := by
          simp [rangesAux, hbit]
        have hinv2 : true = true →
            s < id + 1 ∧ ∀ u, s ≤ u → u < id + 1 → test_mask_bit m u = true := by
          intro _
          refine ⟨by omega, fun u hu1 hu2 => ?_⟩
          rcases Nat.lt_or_ge u id with h | h
          · exact hall u hu1 h
          · have : u = id := by omega
            subst this
            exact hbit
        rw [hstep, ih (id + 1) true s hinv2]
        constructor
        · rintro (⟨_, h1, h2⟩ | ⟨h1, h2, h3⟩)
          · rcases Nat.lt_or_ge t id with h | h
            · exact Or.inl ⟨rfl, h1, h⟩
            · have : t = id := by omega
              subst this
              exact Or.inr ⟨le_refl _, by omega, hbit⟩
          · exact Or.inr ⟨by omega, by omega, h3⟩
        · rintro (⟨_, h1, h2⟩ | ⟨h1, h2, h3⟩)
          · exact Or.inl ⟨rfl, h1, by omega⟩
          · rcases Nat.eq_or_lt_of_le h1 with h | h
            · exact Or.inl ⟨rfl, by omega, by omega⟩
            · exact Or.inr ⟨by omega, by omega, h3⟩
    case false =>
      cases inr
      case true =>
        obtain ⟨hs, hall⟩ := hinv rfl
        have hstep : rangesAux m id (cnt + 1) true s =
            (s, id - 1) :: rangesAux m (id + 1) cnt false s := by
          simp [rangesAux, hbit]
        rw [hstep, List.exists_mem_cons_iff,
          ih (id + 1) false s (by intro h; exact absurd h (by simp))]
        constructor
        · rintro (⟨h1, h2⟩ | (⟨h, _⟩ | ⟨h1, h2, h3⟩))
          · exact Or.inl ⟨rfl, h1, by omega⟩
          · exact absurd h (by simp)
          · exact Or.inr ⟨by omega, by omega, h3⟩
        · rintro (⟨_, h1, h2⟩ | ⟨h1, h2, h3⟩)
          · exact Or.inl ⟨h1, by omega⟩
          · rcases Nat.eq_or_lt_of_le h1 with h | h
            · subst h
              rw [hbit] at h3
              exact absurd h3 (by simp)
            · exact Or.inr (Or.inr ⟨by omega, by omega, h3⟩)
      case false =>
        have hstep : rangesAux m id (cnt + 1) false s =
            rangesAux m (id + 1) cnt false s := by
          simp [rangesAux, hbit]
        rw [hstep, ih (id + 1) false s (by intro h; exact absurd h (by simp))]
        constructor
        · rintro (⟨h, _⟩ | ⟨h1, h2, h3⟩)
          · exact absurd h (by simp)
          · exact Or.inr ⟨by omega, by omega, h3⟩
        · rintro (⟨h, _⟩ | ⟨h1, h2, h3⟩)
          · exact absurd h (by simp)
          · rcases Nat.eq_or_lt_of_le h1 with h | h
            · subst h
              rw [hbit] at h3
              exact absurd h3 (by simp)
            · exact Or.inr ⟨by omega, by omega, h3⟩

theorem rangesAux_wf (m : Nat) :
    ∀ cnt id inr s, (inr = true → s < id) →
      ∀ r ∈ rangesAux m id cnt inr s, r.1 ≤ r.2 ∧ r.2 < id + cnt := by
  intro cnt
  induction cnt with
  | zero =>
    intro id inr s hinv r hr
    cases inr with
    | false =>
      have hstep : rangesAux m id 0 false s = [] := by simp [rangesAux]
      rw [hstep] at hr
      simp at hr
    | true =>
      have hs := hinv rfl
      have hstep : rangesAux m id 0 true s = [(s, id - 1)] := by simp [rangesAux]
      rw [hstep] at hr
      rcases List.mem_singleton.1 hr with rfl
      refine ⟨?_, ?_⟩
      · show s ≤ id - 1
        omega
      · show id - 1 < id + 0
        omega
  | succ cnt ih =>
    intro id inr s hinv r hr
    cases hbit : test_mask_bit m id
    case true =>
      cases inr with
      | false =>
        have hstep : rangesAux m id (cnt + 1) false s =
            rangesAux m (id + 1) cnt true id := by
          simp [rangesAux, hbit]
        rw [hstep] at hr
        have h := ih (id + 1) true id (fun _ => by omega) r hr
        exact ⟨h.1, by omega⟩
      | true =>
        have hstep : rangesAux m id (cnt + 1) true s =
            rangesAux m (id + 1) cnt true s := by
          simp [rangesAux, hbit]
        rw [hstep] at hr
        have h := ih (id + 1) true s (fun _ => by have := hinv rfl; omega) r hr
        exact ⟨h.1, by omega⟩
    case false =>
      cases inr
      case true =>
        have hs := hinv rfl
        have hstep : rangesAux m id (cnt + 1) true s =
            (s, id - 1) :: rangesAux m (id + 1) cnt false s := by
          simp [rangesAux, hbit]
        rw [hstep] at hr
        rcases List.mem_cons.1 hr with rfl | hmem
        · refine ⟨?_, ?_⟩
          · show s ≤ id - 1
            omega
          · show id - 1 < id + (cnt + 1)
            omega
        · have h := ih (id + 1) false s (by intro h; exact absurd h (by simp)) r hmem
          exact ⟨h.1, by omega⟩
      case false =>
        have hstep : rangesAux m id (cnt + 1) false s =
            rangesAux m (id + 1) cnt false s := by
          simp [rangesAux, hbit]
        rw [hstep] at hr
        have h := ih (id + 1) false s (by intro h; exact absurd h (by simp)) r hr
        exact ⟨h.1, by omega⟩

theorem maskRanges_wf (m N : Nat) :
    ∀ r ∈ maskRanges m N, r.1 ≤ r.2 ∧ r.2 < N := by
  intro r hr
  have h := rangesAux_wf m N 0 false 0 (by intro h; exact absurd h (by simp)) r hr
  exact ⟨h.1, by omega⟩

theorem maskRanges_mem (m N t : Nat) :
    (∃ r ∈ maskRanges m N, r.1 ≤ t ∧ t ≤ r.2) ↔
      (t < N ∧ test_mask_bit m t = true) := by
  have h := rangesAux_mem m t N 0 false 0 (by intro h; exact absurd h (by simp))
  rw [maskRanges, h]
  constructor
  · rintro (⟨h1, _⟩ | ⟨_, h2, h3⟩)
    · exact absurd h1 (by simp)
    · exact ⟨by omega, h3⟩
  · rintro ⟨h1, h2⟩
    exact Or.inr ⟨Nat.zero_le _, by omega, h2⟩

theorem bitsOf_maskRanges (m N : Nat) (hm : m < 2 ^ N) :
    bitsOfRanges 0 (maskRanges m N) = m := by
  apply Nat.eq_of_testBit_eq
  intro t
  have hwf : ∀ r ∈ maskRanges m N, r.1 ≤ r.2 := fun r hr => (maskRanges_wf m N r hr).1
  have h1 := test_bitsOfRanges t (maskRanges m N) 0 hwf
  simp only [show test_mask_bit 0 t = false from by simp [test_mask_bit],
    Bool.false_eq_true, false_or] at h1
  rw [maskRanges_mem m N t] at h1
  show test_mask_bit (bitsOfRanges 0 (maskRanges m N)) t = test_mask_bit m t
  rcases Nat.lt_or_ge t N with ht | ht
  · cases hb : test_mask_bit m t
    case true => rw [h1.2 ⟨ht, hb⟩]
    case false =>
      cases hb2 : test_mask_bit (bitsOfRanges 0 (maskRanges m N)) t
      case false => rfl
      case true =>
        have h2 := (h1.1 hb2).2
        rw [h2] at hb
        exact absurd hb (by simp)
  · have hmt : test_mask_bit m t = false := mask_testBit_high hm ht
    rw [hmt]
    cases hb2 : test_mask_bit (bitsOfRanges 0 (maskRanges m N)) t
    case false => rfl
    case true =>
      have h2 := (h1.1 hb2).1
      omega

theorem write_string_out {st st2 : WriteState} {v : List Char}
    (h : write_string st v = some st2) : st2.out = st.out ++ v := by
  unfold write_string at h
  split at h
  · injection h with h2
    rw [← h2]
  · exact Option.noConfusion h

theorem write_uint_out {st st2 : WriteState} {n : Nat}
    (h : write_uint st n = some st2) : st2.out = st.out ++ natToChars n :=
  write_string_out h

theorem write_range_out {st st2 : WriteState} {a b : Nat} {first : Bool}
    (h : write_range st a b first = some st2) :
    st2.out = st.out ++ (if first then [] else [',']) ++ renderRange (a, b) := by
  unfold write_range at h
  split at h
  · exact Option.noConfusion h
  next st1 hpre =>
  have hout1 : st1.out = st.out ++ (if first then [] else [',']) := by
    cases first
    case true =>
      rw [if_pos rfl] at hpre
      injection hpre with h2
      rw [h2]
      simp
    case false =>
      rw [if_neg (by simp)] at hpre
      rw [write_string_out hpre]
      simp
  split at h
  · exact Option.noConfusion h
  next stA hA =>
  by_cases hab : a < b
  · rw [if_pos hab] at h
    split at h
    · exact Option.noConfusion h
    next stB hB =>
    rw [write_uint_out h, write_string_out hB, write_uint_out hA, hout1]
    simp [renderRange, if_pos hab]
  · rw [if_neg hab] at h
    injection h with h2
    rw [← h2, write_uint_out hA, hout1]
    simp [renderRange, if_neg hab]

theorem format_readable_from_out (m N : Nat) :
    ∀ cnt id st inr first s st2, id + cnt = N →
      format_readable_from m N id cnt st inr first s = some st2 →
      st2.out = st.out ++ renderRangesAux first (rangesAux m id cnt inr s) := by
  intro cnt
  induction cnt with
  | zero =>
    intro id st inr first s st2 hN h
    cases inr
    case false =>
      have hstep : format_readable_from m N id 0 st false first s = some st := by
        simp [format_readable_from]
      rw [hstep] at h
      injection h with h2
      rw [← h2]
      have hrng : rangesAux m id 0 false s = [] := by simp [rangesAux]
      rw [hrng]
      simp [renderRangesAux]
    case true =>
      have hstep : format_readable_from m N id 0 st true first s =
          write_range st s (N - 1) first := by
        simp [format_readable_from]
      rw [hstep] at h
      have hrng : rangesAux m id 0 true s = [(s, id - 1)] := by simp [rangesAux]
      rw [hrng, write_range_out h]
      have hid : id - 1 = N - 1 := by omega
      simp [renderRangesAux, hid]
  | succ cnt ih =>
    intro id st inr first s st2 hN h
    cases hbit : test_mask_bit m id
    case true =>
      cases inr
      case false =>
        have hstep : format_readable_from m N id (cnt + 1) st false first s =
            format_readable_from m N (id + 1) cnt st true first id := by
          simp [format_readable_from, hbit]
        have hrng : rangesAux m id (cnt + 1) false s =
            rangesAux m (id + 1) cnt true id := by
          simp [rangesAux, hbit]
        rw [hstep] at h
        rw [hrng]
        exact ih (id + 1) st true first id st2 (by omega) h
      case true =>
        have hstep : format_readable_from m N id (cnt + 1) st true first s =
            format_readable_from m N (id + 1) cnt st true first s := by
          simp [format_readable_from, hbit]
        have hrng : rangesAux m id (cnt + 1) true s =
            rangesAux m (id + 1) cnt true s := by
          simp [rangesAux, hbit]
        rw [hstep] at h
        rw [hrng]
        exact ih (id + 1) st true first s st2 (by omega) h
    case false =>
      cases inr
      case false =>
        have hstep : format_readable_from m N id (cnt + 1) st false first s =
            format_readable_from m N (id + 1) cnt st false first s := by
          simp [format_readable_from, hbit]
        have hrng : rangesAux m id (cnt + 1) false s =
            rangesAux m (id + 1) cnt false s := by
          simp [rangesAux, hbit]
        rw [hstep] at h
        rw [hrng]
        exact ih (id + 1) st false first s st2 (by omega) h
      case true =>
        have hstep : format_readable_from m N id (cnt + 1) st true first s =
            (match write_range st s (id - 1) first with
             | none => none
             | some stX => format_readable_from m N (id + 1) cnt stX false false s) := by
          simp [format_readable_from, hbit]
        have hrng : rangesAux m id (cnt + 1) true s =
            (s, id - 1) :: rangesAux m (id + 1) cnt false s := by
          simp [rangesAux, hbit]
        rw [hstep] at h
        rw [hrng]
        cases hw : write_range st s (id - 1) first
        case none =>
          rw [hw] at h
          exact Option.noConfusion h
        case some stX =>
          rw [hw] at h
          have hrec := ih (id + 1) stX false false s st2 (by omega) h
          rw [hrec, write_range_out hw]
          simp [renderRangesAux]

theorem format_readable_mask_out {m N len : Nat} {out : List Char}
    (h : format_readable_mask m N len = some out) :
    out = renderRangesAux true (maskRanges m N) := by
  unfold format_readable_mask at h
  cases hf : format_readable_from m N 0 N ⟨[], len⟩ false true 0
  case none =>
    rw [hf] at h
    exact Option.noConfusion h
  case some st =>
    rw [hf] at h
    injection h with h2
    have hout := format_readable_from_out m N N 0 ⟨[], len⟩ false true 0 st (by omega) hf
    rw [← h2, hout]
    simp [maskRanges]

theorem maskRanges_ne_nil (m N : Nat) (hc : 1 ≤ count_mask_bits m N) :
    maskRanges m N ≠ [] := by
  have h : 0 < (List.range N).countP (fun bit => test_mask_bit m bit) := hc
  rw [List.countP_pos_iff] at h
  obtain ⟨t, htmem, hbit⟩ := h
  have htN : t < N := List.mem_range.mp htmem
  intro hnil
  have h2 := (maskRanges_mem m N t).2 ⟨htN, by exact hbit⟩
  rw [hnil] at h2
  obtain ⟨r, hr, _⟩ := h2
  simp at hr

theorem parse_mask_list_step_dash (N fuel m0 a b : Nat) (tail : List Char)
    (haN : a < N) (hbN : b < N) (hab : a ≤ b) (htail : headNotDigit tail) :
    parse_mask_list N (fuel + 1) (natToChars a ++ ('-' :: (natToChars b ++ tail))) m0 =
      (match read_char tail ',' with
       | some r4 => parse_mask_list N fuel r4 (set_mask_range m0 a (b + 1 - a))
       | none => some (set_mask_range m0 a (b + 1 - a), tail)) := by
  have hpu1 := parse_uint_append a ('-' :: (natToChars b ++ tail))
    (by show isDigitChar '-' = false; decide)
  have hpu2 := parse_uint_append b tail htail
  have hrc : ∀ l : List Char, read_char ('-' :: l) '-' = some l := fun l => by
    simp [read_char]
  simp [parse_mask_list, parse_id, hpu1, hpu2, hrc, haN, hbN, hab]

theorem parse_mask_list_step_single (N fuel m0 a : Nat) (tail : List Char)
    (haN : a < N) (htail : headNotDigit tail)
    (hdash : read_char tail '-' = none) :
    parse_mask_list N (fuel + 1) (natToChars a ++ tail) m0 =
      (match read_char tail ',' with
       | some r4 => parse_mask_list N fuel r4 (set_mask_range m0 a 1)
       | none => some (set_mask_range m0 a 1, tail)) := by
  have hpu1 := parse_uint_append a tail htail
  simp [parse_mask_list, parse_id, hpu1, haN, hdash]

theorem renderRangesAux_length : ∀ (first : Bool) (rs : List (Nat × Nat)),
    rs.length ≤ (renderRangesAux first rs).length := by
  intro first rs
  induction rs generalizing first with
  | nil => simp [renderRangesAux]
  | cons r rest ih =>
    have h0 : 0 < (natToChars r.1).length := List.length_pos.mpr (natToChars_ne_nil r.1)
    have h1 : 1 ≤ (renderRange r).length := by
      simp only [renderRange, List.length_append]
      omega
    have h2 := ih false
    calc (r :: rest).length = rest.length + 1 := by simp
    _ ≤ (renderRange r).length + (renderRangesAux false rest).length := by omega
    _ ≤ ((if first then ([] : List Char) else [',']) ++ renderRange r ++
          renderRangesAux false rest).length := by
        simp only [List.length_append]
        omega
    _ = (renderRangesAux first (r :: rest)).length := by simp [renderRangesAux]

theorem parse_mask_list_render (N : Nat) :
    ∀ rs m0 fuel, (∀ r ∈ rs, r.1 ≤ r.2 ∧ r.2 < N) → rs ≠ [] → rs.length < fuel →
      parse_mask_list N fuel (renderRangesAux true rs) m0 =
        some (bitsOfRanges m0 rs, []) := by
  intro rs
  induction rs with
  | nil =>
    intro m0 fuel _ hne _
    exact absurd rfl hne
  | cons r rest ih =>
    intro m0 fuel hwf _ hfuel
    obtain ⟨f, rfl⟩ : ∃ f, fuel = f + 1 := ⟨fuel - 1, by omega⟩
    obtain ⟨hr12, hr2N⟩ := hwf r (List.mem_cons_self _ _)
    have hr1N : r.1 < N := by omega
    have htail : headNotDigit (renderRangesAux false rest) := by
      cases rest with
      | nil => trivial
      | cons r2 rest2 =>
        show isDigitChar ',' = false
        decide
    have hrc2 : ∀ l : List Char, read_char (',' :: l) ',' = some l := fun l => by
      simp [read_char]
    have hshape : renderRangesAux true (r :: rest) =
        renderRange r ++ renderRangesAux false rest := by
      simp [renderRangesAux]
    by_cases hab : r.1 < r.2
    · have hshape2 : renderRangesAux true (r :: rest) =
          natToChars r.1 ++ ('-' :: (natToChars r.2 ++ renderRangesAux false rest)) := by
        rw [hshape, renderRange, if_pos hab]
        simp
      rw [hshape2,
        parse_mask_list_step_dash N f m0 r.1 r.2 _ hr1N (by omega) (by omega) htail]
      cases rest with
      | nil =>
        simp only [show renderRangesAux false ([] : List (Nat × Nat)) = [] from rfl,
          show read_char ([] : List Char) ',' = none from rfl]
        rfl
      | cons r2 rest2 =>
        have hft : renderRangesAux false (r2 :: rest2) =
            ',' :: renderRangesAux true (r2 :: rest2) := by
          simp [renderRangesAux]
        rw [hft, hrc2]
        show parse_mask_list N f (renderRangesAux true (r2 :: rest2))
            (set_mask_range m0 r.1 (r.2 + 1 - r.1)) =
          some (bitsOfRanges m0 (r :: r2 :: rest2), [])
        rw [ih (set_mask_range m0 r.1 (r.2 + 1 - r.1)) f
          (fun rr hrr => hwf rr (List.mem_cons_of_mem _ hrr)) (by simp)
          (by simp only [List.length_cons] at hfuel ⊢; omega)]
        rfl
    · have hshape2 : renderRangesAux true (r :: rest) =
          natToChars r.1 ++ renderRangesAux false rest := by
        rw [hshape, renderRange, if_neg hab]
        simp
      have hdashn : read_char (renderRangesAux false rest) '-' = none := by
        cases rest with
        | nil => rfl
        | cons r2 rest2 =>
          show read_char (',' :: _) '-' = none
          simp [read_char]
      rw [hshape2, parse_mask_list_step_single N f m0 r.1 _ hr1N htail hdashn]
      cases rest with
      | nil =>
        simp only [show renderRangesAux false ([] : List (Nat × Nat)) = [] from rfl,
          show read_char ([] : List Char) ',' = none from rfl]
        show some (set_mask_range m0 r.1 1, ([] : List Char)) =
          some (set_mask_range m0 r.1 (r.2 + 1 - r.1), [])
        rw [show r.2 + 1 - r.1 = 1 from by omega]
      | cons r2 rest2 =>
        have hft : renderRangesAux false (r2 :: rest2) =
            ',' :: renderRangesAux true (r2 :: rest2) := by
          simp [renderRangesAux]
        rw [hft, hrc2]
        show parse_mask_list N f (renderRangesAux true (r2 :: rest2))
            (set_mask_range m0 r.1 1) =
          some (bitsOfRanges m0 (r :: r2 :: rest2), [])
        rw [show set_mask_range m0 r.1 1 = set_mask_range m0 r.1 (r.2 + 1 - r.1) from by
          rw [show r.2 + 1 - r.1 = 1 from by omega]]
        rw [ih (set_mask_range m0 r.1 (r.2 + 1 - r.1)) f
          (fun rr hrr => hwf rr (List.mem_cons_of_mem _ hrr)) (by simp)
          (by simp only [List.length_cons] at hfuel ⊢; omega)]
        rfl

theorem hexNibble_hexDigitChar (n : Nat) (h : n < 16) :
    hexNibble (hexDigitChar n) = some n := by
  interval_cases n <;> decide

theorem nibble_split (b s : Nat) :
    ((b / 16) <<< (s + 4)) ||| ((b % 16) <<< s) = b <<< s := by
  apply Nat.eq_of_testBit_eq
  intro t
  have hdiv : b / 16 = b >>> 4 := by
    rw [Nat.shiftRight_eq_div_pow]
  rw [hdiv, show (16 : Nat) = 2 ^ 4 from by norm_num]
  simp only [Nat.testBit_or, Nat.testBit_shiftLeft, Nat.testBit_shiftRight,
    Nat.testBit_mod_two_pow]
  rcases Nat.lt_or_ge t s with h1 | h1
  · have e1 : decide (s + 4 ≤ t) = false := by simp; omega
    have e2 : decide (s ≤ t) = false := by simp; omega
    rw [e1, e2]
    simp
  · rcases Nat.lt_or_ge t (s + 4) with h2 | h2
    · have e1 : decide (s + 4 ≤ t) = false := by simp; omega
      have e2 : decide (s ≤ t) = true := by simp; omega
      have e3 : decide (t - s < 4) = true := by simp; omega
      rw [e1, e2, e3]
      simp
    · have e1 : decide (s + 4 ≤ t) = true := by simp; omega
      have e2 : decide (s ≤ t) = true := by simp; omega
      have e3 : decide (t - s < 4) = false := by simp; omega
      have e4 : 4 + (t - (s + 4)) = t - s := by omega
      rw [e1, e2, e3, e4]
      simp

theorem byte_prepend (m w : Nat) :
    (((m >>> w) % 256) <<< w) ||| (m % 2 ^ w) = m % 2 ^ (w + 8) := by
  apply Nat.eq_of_testBit_eq
  intro t
  rw [show (256 : Nat) = 2 ^ 8 from by norm_num]
  simp only [Nat.testBit_or, Nat.testBit_shiftLeft, Nat.testBit_mod_two_pow,
    Nat.testBit_shiftRight]
  rcases Nat.lt_or_ge t w with h1 | h1
  · have e1 : decide (w ≤ t) = false := by simp; omega
    have e2 : decide (t < w) = true := by simp; omega
    have e3 : decide (t < w + 8) = true := by simp; omega
    rw [e1, e2, e3]
    simp
  · have e1 : decide (w ≤ t) = true := by simp; omega
    have e2 : decide (t < w) = false := by simp; omega
    have e4 : w + (t - w) = t := by omega
    rw [e1, e2, e4]
    by_cases h2 : t < w + 8
    · have e3 : decide (t - w < 8) = true := by simp; omega
      have e5 : decide (t < w + 8) = true := by simp; omega
      rw [e3, e5]
      simp
    · have e3 : decide (t - w < 8) = false := by simp; omega
      have e5 : decide (t < w + 8) = false := by simp; omega
      rw [e3, e5]
      simp

theorem raw_recombine (m acc k : Nat) :
    acc ||| (((m >>> (8 * k)) % 256 / 16) <<< (4 * (2 * k + 1))) |||
      (((m >>> (8 * k)) % 256 % 16) <<< (4 * (2 * k))) ||| (m % 2 ^ (8 * k)) =
    acc ||| m % 2 ^ (8 * (k + 1)) := by
  rw [show 4 * (2 * k + 1) = 4 * (2 * k) + 4 from by ring,
    Nat.or_assoc acc, Nat.or_assoc,
    nibble_split, show 4 * (2 * k) = 8 * k from by ring, byte_prepend,
    show 8 * k + 8 = 8 * (k + 1) from by ring]

theorem parse_format_raw_aux (m : Nat) :
    ∀ k rest acc, parse_raw_mask_aux (2 * k) (format_raw_mask_chars m k ++ rest) acc =
      some (acc ||| m % 2 ^ (8 * k), rest) := by
  intro k
  induction k with
  | zero =>
    intro rest acc
    show parse_raw_mask_aux 0 rest acc = some (acc ||| m % 2 ^ (8 * 0), rest)
    show some (acc, rest) = _
    rw [show (2 : Nat) ^ (8 * 0) = 1 from by norm_num, Nat.mod_one, Nat.or_zero]
  | succ k ih =>
    intro rest acc
    have hb : (m >>> (8 * k)) % 256 < 256 := Nat.mod_lt _ (by norm_num)
    have hshape : format_raw_mask_chars m (k + 1) ++ rest =
        hexDigitChar ((m >>> (8 * k)) % 256 / 16) ::
          hexDigitChar ((m >>> (8 * k)) % 256 % 16) ::
            (format_raw_mask_chars m k ++ rest) := by
      simp [format_raw_mask_chars, hexByteChars]
    have hn1 : hexNibble (hexDigitChar ((m >>> (8 * k)) % 256 / 16)) =
        some ((m >>> (8 * k)) % 256 / 16) :=
      hexNibble_hexDigitChar _ (by omega)
    have hn2 : hexNibble (hexDigitChar ((m >>> (8 * k)) % 256 % 16)) =
        some ((m >>> (8 * k)) % 256 % 16) :=
      hexNibble_hexDigitChar _ (by omega)
    rw [hshape, show 2 * (k + 1) = (2 * k + 1) + 1 from by ring]
    simp only [parse_raw_mask_aux, hn1, hn2]
    rw [ih rest _, raw_recombine]

/-- C1: for every filter mask `m` over `N` ids (`N` a multiple of 8, as the
byte-array mask layout requires, `m < 2^N`) with at least one bit set,
parsing the string produced by `format_mask` over the same `N` yields exactly
the mask `m` again with no residual input — whether `format_mask` produced
the readable range form or the raw `R`-prefixed hex form. -/
theorem parse_format_mask_roundtrip (m N : Nat) (h8 : 8 ∣ N) (hm : m < 2 ^ N)
    (hpc : 1 ≤ count_mask_bits m N) :
    parse_mask N (format_mask m N).1 = some (m, []) := by
  unfold format_mask
  cases hf : format_readable_mask m N (N / 4) with
  | some out =>
    have hout : out = renderRangesAux true (maskRanges m N) := format_readable_mask_out hf
    have hne : maskRanges m N ≠ [] := maskRanges_ne_nil m N hpc
    obtain ⟨r, rest, hcons⟩ : ∃ r rest, maskRanges m N = r :: rest := by
      cases hmr : maskRanges m N with
      | nil => exact absurd hmr hne
      | cons a l => exact ⟨a, l, rfl⟩
    obtain ⟨c, cr, hnc⟩ : ∃ c cr, natToChars r.1 = c :: cr := by
      cases hn : natToChars r.1 with
      | nil => exact absurd hn (natToChars_ne_nil r.1)
      | cons a l => exact ⟨a, l, rfl⟩
    have hdig : isDigitChar c = true :=
      natToChars_all_digits r.1 c (by rw [hnc]; exact List.mem_cons_self _ _)
    have hhead : out = c :: (cr ++ ((if r.1 < r.2 then '-' :: natToChars r.2 else []) ++
        renderRangesAux false rest)) := by
      rw [hout, hcons]
      simp [renderRangesAux, renderRange, hnc]
    have hcR : read_char out 'R' = none := by
      rw [hhead]
      have hne2 : (c = 'R') = False := by
        simp only [eq_iff_iff, iff_false]
        intro hc
        rw [hc] at hdig
        exact absurd hdig (by decide)
      simp [read_char, hne2]
    show parse_mask N out = some (m, [])
    unfold parse_mask
    rw [hcR]
    show parse_mask_list N (out.length + 1) out 0 = some (m, [])
    rw [hout, parse_mask_list_render N (maskRanges m N) 0 _ (maskRanges_wf m N) hne
      (by have := renderRangesAux_length true (maskRanges m N); omega),
      bitsOf_maskRanges m N hm]
  | none =>
    obtain ⟨j, rfl⟩ := h8
    show parse_mask (8 * j) ('R' :: format_raw_mask_chars m (8 * j / 8)) = some (m, [])
    have hj8 : 8 * j / 8 = j := by omega
    have hj4 : 8 * j / 4 = 2 * j := by omega
    rw [hj8]
    unfold parse_mask
    rw [show read_char ('R' :: format_raw_mask_chars m j) 'R' =
      some (format_raw_mask_chars m j) from by simp [read_char]]
    show parse_raw_mask (8 * j) (format_raw_mask_chars m j) = some (m, [])
    unfold parse_raw_mask
    rw [hj4]
    have h := parse_format_raw_aux m j [] 0
    rw [List.append_nil] at h
    rw [h, Nat.zero_or, Nat.mod_eq_of_lt hm]

theorem parse_format_mask_roundtrip_witness :
    ((8 : Nat) ∣ 16 ∧ 7311 < 2 ^ 16 ∧ 1 ≤ count_mask_bits 7311 16) ∧
      parse_mask 16 (format_mask 7311 16).1 = some (7311, []) :=
  ⟨⟨⟨2, rfl⟩, by decide, by decide⟩,
    parse_format_mask_roundtrip 7311 16 ⟨2, rfl⟩ (by decide) (by decide)⟩

theorem format_raw_mask_chars_length (m : Nat) :
    ∀ k, (format_raw_mask_chars m k).length = 2 * k := by
  intro k
  induction k with
  | zero => rfl
  | succ k ih =>
    simp only [format_raw_mask_chars, hexByteChars, List.length_append,
      List.length_cons, List.length_nil, ih]
    omega

theorem format_raw_mask_chars_hex (m : Nat) :
    ∀ k, ∀ c ∈ format_raw_mask_chars m k, ∃ n, n < 16 ∧ c = hexDigitChar n := by
  intro k
  induction k with
  | zero =>
    intro c hc
    simp [format_raw_mask_chars] at hc
  | succ k ih =>
    intro c hc
    have hb : (m >>> (8 * k)) % 256 < 256 := Nat.mod_lt _ (by norm_num)
    simp only [format_raw_mask_chars, hexByteChars, List.mem_append,
      List.mem_cons, List.not_mem_nil, or_false] at hc
    rcases hc with (hc | hc) | hc
    · exact ⟨(m >>> (8 * k)) % 256 / 16, by omega, hc⟩
    · exact ⟨(m >>> (8 * k)) % 256 % 16, by omega, hc⟩
    · exact ih c hc

/-- C8 (amended): when the readable range form does not fit in `N / 4`
characters, `format_mask` falls back to the raw form: the character `R`
followed by exactly `N / 4` hexadecimal characters (the bytes most
significant first), but its second component — the C return value — is
`4 * N`, not the number of characters written. -/
theorem format_mask_raw_fallback (m N : Nat) (h8 : 8 ∣ N)
    (hfail : format_readable_mask m N (N / 4) = none) :
    (format_mask m N).1 = 'R' :: format_raw_mask_chars m (N / 8) ∧
      ((format_mask m N).1).length = 1 + N / 4 ∧
      (∀ c ∈ ((format_mask m N).1).tail, ∃ n, n < 16 ∧ c = hexDigitChar n) ∧
      (format_mask m N).2 = 4 * N := by
  obtain ⟨j, rfl⟩ := h8
  unfold format_mask
  rw [hfail]
  refine ⟨rfl, ?_, ?_, rfl⟩
  · show ('R' :: format_raw_mask_chars m (8 * j / 8)).length = 1 + 8 * j / 4
    rw [List.length_cons, format_raw_mask_chars_length]
    omega
  · intro c hc
    exact format_raw_mask_chars_hex m (8 * j / 8) c hc

theorem format_mask_raw_fallback_witness :
    ((8 : Nat) ∣ 8 ∧ format_readable_mask 1 8 (8 / 4) = none) ∧
      ((format_mask 1 8).1 = 'R' :: format_raw_mask_chars 1 (8 / 8) ∧
        ((format_mask 1 8).1).length = 1 + 8 / 4 ∧
        (∀ c ∈ ((format_mask 1 8).1).tail, ∃ n, n < 16 ∧ c = hexDigitChar n) ∧
        (format_mask 1 8).2 = 4 * 8) :=
  ⟨⟨⟨1, rfl⟩, by decide⟩, format_mask_raw_fallback 1 8 ⟨1, rfl⟩ (by decide)⟩

/-- The raw branch of `format_mask` returns `4 * fa_entry_count`, which is
not the number of characters it wrote: at `m = 1`, `N = 8` it writes the
three characters `R01` but returns 32. -/
theorem format_mask_return_counterexample :
    format_readable_mask 1 8 (8 / 4) = none ∧
      (format_mask 1 8).1 = ['R', '0', '1'] ∧
      (format_mask 1 8).2 = 32 ∧
      (format_mask 1 8).2 ≠ ((format_mask 1 8).1).length := by
  refine ⟨by decide, by decide, by decide, by decide⟩

/-- C7: on a gap sentinel (null block) `process_block` resets `fa_offset`,
`d_offset` and `timestamp_index` to zero, moves the double-decimation
write cursor back to the start of the current major block's DD area and
reinitialises every double-decimation accumulator (all `output_id_count`
of them, the rest of the array untouched), and changes nothing else:
`current_major_block`, the data index, the scheduled major-block writes,
both buffer areas, the DD area, the current buffer, the timestamp array
and the smoothed duration are all unchanged. -/
theorem process_block_gap_frame (cfg : TransformConfig) (st : TransformState)
    (ts : Nat) :
    (process_block cfg st none ts).fa_offset = 0 ∧
    (process_block cfg st none ts).d_offset = 0 ∧
    (process_block cfg st none ts).timestamp_index = 0 ∧
    (process_block cfg st none ts).dd_offset =
      st.current_major_block * cfg.dd_sample_count ∧
    (∀ i, i < cfg.output_id_count →
      (process_block cfg st none ts).double_accumulators i = initialise_accum) ∧
    (∀ i, cfg.output_id_count ≤ i →
      (process_block cfg st none ts).double_accumulators i =
        st.double_accumulators i) ∧
    (process_block cfg st none ts).current_major_block = st.current_major_block ∧
    (process_block cfg st none ts).data_index = st.data_index ∧
    (process_block cfg st none ts).disk = st.disk ∧
    (process_block cfg st none ts).fa_area = st.fa_area ∧
    (process_block cfg st none ts).d_area = st.d_area ∧
    (process_block cfg st none ts).dd_area = st.dd_area ∧
    (process_block cfg st none ts).current_buffer = st.current_buffer ∧
    (process_block cfg st none ts).timestamp_array = st.timestamp_array ∧
    (process_block cfg st none ts).first_timestamp = st.first_timestamp ∧
    (process_block cfg st none ts).last_duration = st.last_duration := by
  refine ⟨rfl, rfl, rfl, rfl, ?_, ?_, rfl, rfl, rfl, rfl, rfl, rfl, rfl, rfl,
    rfl, rfl⟩
  · intro i hi
    show (if i < cfg.output_id_count then initialise_accum
      else st.double_accumulators i) = initialise_accum
    rw [if_pos hi]
  · intro i hi
    show (if i < cfg.output_id_count then initialise_accum
      else st.double_accumulators i) = st.double_accumulators i
    rw [if_neg (Nat.not_lt.mpr hi)]

theorem expire_count_bounds (blocks : Nat → BlockRecord) (ex : Int → Bool) :
    ∀ bc, 1 ≤ bc → 1 ≤ expire_count blocks ex bc ∧ expire_count blocks ex bc ≤ bc := by
  intro bc
  induction bc with
  | zero => intro h; omega
  | succ b ih =>
    intro _
    cases b with
    | zero =>
      refine ⟨?_, ?_⟩ <;> simp [expire_count]
    | succ b2 =>
      have ih2 := ih (by omega)
      cases hex : ex (blocks (b2 + 1)).stop_offset
      case true =>
        rw [show expire_count blocks ex (b2 + 1 + 1) = expire_count blocks ex (b2 + 1)
          from by simp [expire_count, hex]]
        exact ⟨ih2.1, by omega⟩
      case false =>
        rw [show expire_count blocks ex (b2 + 1 + 1) = b2 + 2
          from by simp [expire_count, hex]]
        omega

theorem update_header_block_count (now : Nat) (force : Bool) (st : WriterState) :
    (update_header now force st).block_count =
      expire_count st.blocks (expired st) st.block_count := by
  simp only [update_header]
  split <;> rfl

theorem start_archive_block_count (MAX now : Nat) (st : WriterState) :
    (start_archive_block MAX now st).block_count =
      if MAX < st.block_count + 1 then MAX else st.block_count + 1 := rfl

theorem applyOp_block_count (MAX : Nat) (ds : Int) (hMAX : 1 ≤ MAX)
    (st : WriterState) (op : WriterOp) (h1 : 1 ≤ st.block_count)
    (h2 : st.block_count ≤ MAX) :
    1 ≤ (applyOp MAX ds st op).block_count ∧
      (applyOp MAX ds st op).block_count ≤ MAX := by
  cases op with
  | write sz => exact ⟨h1, h2⟩
  | update now force =>
    have hb := expire_count_bounds st.blocks (expired st) st.block_count h1
    have he : (applyOp MAX ds st (WriterOp.update now force)).block_count =
        expire_count st.blocks (expired st) st.block_count :=
      update_header_block_count now force st
    rw [he]
    exact ⟨hb.1, by omega⟩
  | start now =>
    have he : (applyOp MAX ds st (WriterOp.start now)).block_count =
        (if MAX < st.block_count + 1 then MAX else st.block_count + 1) :=
      start_archive_block_count MAX now st
    rw [he]
    split <;> omega

theorem applyOps_block_count (MAX : Nat) (ds : Int) (hMAX : 1 ≤ MAX) :
    ∀ ops st, 1 ≤ st.block_count → st.block_count ≤ MAX →
      1 ≤ (applyOps MAX ds st ops).block_count ∧
        (applyOps MAX ds st ops).block_count ≤ MAX := by
  intro ops
  induction ops with
  | nil =>
    intro st h1 h2
    exact ⟨h1, h2⟩
  | cons op ops ih =>
    intro st h1 h2
    have h := applyOp_block_count MAX ds hMAX st op h1 h2
    exact ih _ h.1 h.2

/-- C10: once the writer has executed its first `start_archive_block`,
the header's `block_count` stays in `[1, MAX_HEADER_BLOCKS]` across every
subsequent sequence of header operations (write-pointer advances,
`update_header`, further `start_archive_block`s): the expiry loop removes
blocks only while more than one remains, and `start_archive_block`
increments the count but caps it at `MAX_HEADER_BLOCKS`. -/
theorem block_count_invariant (MAX : Nat) (ds : Int) (now0 : Nat)
    (st0 : WriterState) (ops : List WriterOp) (hMAX : 1 ≤ MAX) :
    1 ≤ (applyOps MAX ds (start_archive_block MAX now0 st0) ops).block_count ∧
      (applyOps MAX ds (start_archive_block MAX now0 st0) ops).block_count ≤ MAX := by
  have hstart : 1 ≤ (start_archive_block MAX now0 st0).block_count ∧
      (start_archive_block MAX now0 st0).block_count ≤ MAX := by
    rw [start_archive_block_count]
    split <;> omega
  exact applyOps_block_count MAX ds hMAX ops _ hstart.1 hstart.2

theorem block_count_invariant_witness :
    (1 : Nat) ≤ 4 ∧
      (1 ≤ (applyOps 4 100 (start_archive_block 4 7 sampleWriterState)
          [WriterOp.write 10, WriterOp.update 8 false, WriterOp.start 9]).block_count ∧
        (applyOps 4 100 (start_archive_block 4 7 sampleWriterState)
          [WriterOp.write 10, WriterOp.update 8 false, WriterOp.start 9]).block_count ≤ 4) :=
  ⟨by decide, block_count_invariant 4 100 7 sampleWriterState
    [WriterOp.write 10, WriterOp.update 8 false, WriterOp.start 9] (by decide)⟩

end FaArchiver
